import Mathlib

/-!
Verification of the ccc cost-aggregation pipeline: a shallow embedding of the
concurrent ingestion pipeline, the deduplicating accumulator and the
time-bucketed append-only history store, together with proofs of the
testable properties stated in the specification.

Modelling conventions:
* Go strings and byte slices are `List Char`.
* Go `float64` monetary amounts are exact rationals (`Rat`); the dedup and
  aggregation logic only compares and adds them.
* Go `int`/`int64` are `Int`; `time.Time` values are Unix epoch seconds
  (`Int`), with local-calendar conversion supplied by a `GoLocation`.
* Go maps are association lists in insertion order; Go map-backed string
  sets are `List String` with membership-tested insertion.
-/

/-- Character for a decimal digit below ten, as produced by Go integer
formatting. -/
def digitChar (n : Nat) : Char := Char.ofNat (48 + n)

/-- The ten decimal digit characters. -/
def digitChars : List Char := ['0', '1', '2', '3', '4', '5', '6', '7', '8', '9']

/-- Decimal digits of a natural number, most significant first, with explicit
recursion fuel (20 suffices for every `int64`). Mirrors `strconv.FormatInt`
on non-negative input. -/
def natDigitsAux : Nat → Nat → List Char
  | 0, _ => []
  | fuel + 1, n => if n < 10 then [digitChar n] else natDigitsAux fuel (n / 10) ++ [digitChar (n % 10)]

/-- Decimal digit string of a natural number (covers all values below `10^20`,
in particular the whole `int64` range used by the program). -/
def natDigitsRec (n : Nat) : List Char := natDigitsAux 20 n

/-- Model of Go `strconv.FormatInt(i, 10)`. -/
def formatInt (i : Int) : List Char :=
  if i < 0 then '-' :: natDigitsRec i.natAbs else natDigitsRec i.toNat

/-- Numeric value of a decimal digit character, if it is one. -/
def digitVal (c : Char) : Option Nat :=
  if 48 ≤ c.toNat ∧ c.toNat ≤ 57 then some (c.toNat - 48) else none

/-- Accumulating decimal parser over a character list; fails on the first
non-digit. -/
def parseDigitsAux : List Char → Nat → Option Nat
  | [], acc => some acc
  | c :: cs, acc =>
    match digitVal c with
    | some d => parseDigitsAux cs (acc * 10 + d)
    | none => none

/-- Parse a non-empty all-digit string; empty input is an error. -/
def parseDigits (s : List Char) : Option Nat :=
  match s with
  | [] => none
  | _ => parseDigitsAux s 0

/-- Model of Go `strconv.ParseInt(s, 10, 64)`: optional sign, decimal digits,
error when empty or out of the `int64` range. -/
def goParseInt (s : List Char) : Option Int :=
  match s with
  | [] => none
  | c :: rest =>
    if c = '-' then
      match parseDigits rest with
      | some n => if (n : Int) ≤ 2 ^ 63 then some (-(n : Int)) else none
      | none => none
    else if c = '+' then
      match parseDigits rest with
      | some n => if (n : Int) < 2 ^ 63 then some (n : Int) else none
      | none => none
    else
      match parseDigits s with
      | some n => if (n : Int) < 2 ^ 63 then some (n : Int) else none
      | none => none

/-- Model of Go `strings.Split(s, sep)` for a one-character separator. -/
def goSplit (sep : Char) : List Char → List (List Char)
  | [] => [[]]
  | c :: cs =>
    if c = sep then [] :: goSplit sep cs
    else
      match goSplit sep cs with
      | p :: ps => (c :: p) :: ps
      | [] => [[c]]

/-- Model of Go `strings.TrimSuffix`. -/
def goTrimSuffix (s suffix : List Char) : List Char :=
  if suffix.isSuffixOf s then s.take (s.length - suffix.length) else s

/-- Model of Go `filepath.Base`. -/
def goFilepathBase (path : List Char) : List Char :=
  if path = [] then ['.']
  else
    let t := (path.reverse.dropWhile (fun c => c = '/')).reverse
    if t = [] then ['/']
    else (t.reverse.takeWhile (fun c => c ≠ '/')).reverse

/-- A civil (local calendar) date, as produced by Go `time.Time.Date()`. -/
structure CivilDate where
  year : Int
  month : Int
  day : Int
deriving DecidableEq

/-- Gregorian leap-year test, as in Go `time.isLeap`. -/
def isLeap (y : Int) : Bool :=
  (y % 4 == 0 && y % 100 != 0) || y % 400 == 0

/-- Number of days in a Gregorian month. -/
def daysInMonth (y m : Int) : Int :=
  if m = 2 then (if isLeap y then 29 else 28)
  else if m = 4 ∨ m = 6 ∨ m = 9 ∨ m = 11 then 30
  else 31

/-- A civil date representable by a Go time with a four-digit year. -/
def CivilDate.Valid (c : CivilDate) : Prop :=
  0 ≤ c.year ∧ c.year ≤ 9999 ∧ 1 ≤ c.month ∧ c.month ≤ 12 ∧
    1 ≤ c.day ∧ c.day ≤ daysInMonth c.year c.month

instance (c : CivilDate) : Decidable c.Valid := by
  unfold CivilDate.Valid; infer_instance

/-- Calendar successor of a valid civil date; this is what Go
`time.Date(y, m, d+1, 0, 0, 0, 0, loc)` normalises a day overflow to, and
hence what `startOfDay.AddDate(0, 0, 1)` denotes in `HistoryFilename`. -/
def nextDay (c : CivilDate) : CivilDate :=
  if c.day < daysInMonth c.year c.month then ⟨c.year, c.month, c.day + 1⟩
  else if c.month < 12 then ⟨c.year, c.month + 1, 1⟩
  else ⟨c.year + 1, 1, 1⟩

/-- Year adjusted so the internal year starts in March. -/
def yAdj (c : CivilDate) : Int := if c.month ≤ 2 then c.year - 1 else c.year

/-- Month index counted from March. -/
def marchMonth (m : Int) : Int := (m + 9) % 12

/-- Day of the internal (March-based) year, zero-based. -/
def doyOf (c : CivilDate) : Int := (153 * marchMonth c.month + 2) / 5 + c.day - 1

/-- Days elapsed since 1970-01-01 for a civil date (proleptic Gregorian). -/
def daysFromCivil (c : CivilDate) : Int :=
  yAdj c / 400 * 146097 +
    (yAdj c % 400 * 365 + yAdj c % 400 / 4 - yAdj c % 400 / 100 + doyOf c) - 719468

/-- Civil date of a day count since 1970-01-01 (inverse of `daysFromCivil`). -/
def civilFromDays (z0 : Int) : CivilDate :=
  let z := z0 + 719468
  let era := z / 146097
  let doe := z - era * 146097
  let yoe := (doe - doe / 1460 + doe / 36524 - doe / 146096) / 365
  let y := yoe + era * 400
  let doy := doe - (365 * yoe + yoe / 4 - yoe / 100)
  let mp := (5 * doy + 2) / 153
  let d := doy - (153 * mp + 2) / 5 + 1
  let m := if mp < 10 then mp + 3 else mp - 9
  ⟨y + (if m ≤ 2 then 1 else 0), m, d⟩

/-- Abstraction of a Go `time.Location`: `toCivil` is what `t.Date()` reports
in that location, `fromCivil` is the Unix second of
`time.Date(y, m, d, 0, 0, 0, 0, loc)` (local midnight of that civil day). -/
structure GoLocation where
  toCivil : Int → CivilDate
  fromCivil : CivilDate → Int

/-- The DST-free location at a constant UTC offset `off` (seconds east);
`fixedGoLocation 0` is UTC. -/
def fixedGoLocation (off : Int) : GoLocation where
  toCivil t := civilFromDays ((t + off) / 86400)
  fromCivil c := 86400 * daysFromCivil c - off

/-- Two-digit zero-padded decimal, as Go layout `01`/`02` renders months and
days. -/
def pad2 (n : Nat) : List Char :=
  if n < 10 then '0' :: natDigitsRec n else natDigitsRec n

/-- Four-digit zero-padded decimal, as Go layout `2006` renders years. -/
def pad4 (n : Nat) : List Char :=
  List.replicate (4 - (natDigitsRec n).length) '0' ++ natDigitsRec n

/-- The literal `.jsonl` extension. -/
def jsonlSuffix : List Char := ['.', 'j', 's', 'o', 'n', 'l']

/-- Go layout `2006-01-02` applied to a civil date (years taken non-negative,
per `CivilDate.Valid`). -/
def formatDate (c : CivilDate) : List Char :=
  pad4 c.year.toNat ++ '-' :: pad2 c.month.toNat ++ '-' :: pad2 c.day.toNat

/-- Model of `HistoryFilename`: `YYYY-MM-DD-<start_epoch>-<end_epoch>.jsonl`
where the range is the local calendar day of `t`, end exclusive. -/
def HistoryFilename (loc : GoLocation) (t : Int) : List Char :=
  let d := loc.toCivil t
  let startOfDay := loc.fromCivil d
  let endOfDay := loc.fromCivil (nextDay d)
  formatDate d ++ '-' :: formatInt startOfDay ++ '-' :: formatInt endOfDay ++ jsonlSuffix

/-- Field extraction step of `ParseHistoryFilename`: require at least five
dash-separated parts and parse fields 3 and 4 as Unix seconds. -/
def parseHistoryParts (parts : List (List Char)) : Option (Int × Int) :=
  if parts.length < 5 then none
  else
    match goParseInt (parts.getD 3 []), goParseInt (parts.getD 4 []) with
    | some s, some e => some (s, e)
    | _, _ => none

/-- Model of `ParseHistoryFilename`: strip directory and extension, split on
dashes, parse fields 3 and 4 as the start and end Unix seconds. -/
def ParseHistoryFilename (name : List Char) : Option (Int × Int) :=
  parseHistoryParts (goSplit '-' (goTrimSuffix (goFilepathBase name) jsonlSuffix))

/-- Model of `FileOverlapsRange`: the filename-embedded range strictly
overlaps the query range; unparseable names do not overlap. -/
def FileOverlapsRange (filename : List Char) (queryStart queryEnd : Int) : Bool :=
  match ParseHistoryFilename filename with
  | none => false
  | some (fileStart, fileEnd) => decide (fileStart < queryEnd) && decide (fileEnd > queryStart)

/-- Model of `FilterFilesForRange`: keep exactly the overlapping files. -/
def FilterFilesForRange (files : List (List Char)) (queryStart queryEnd : Int) :
    List (List Char) :=
  files.filter (fun f => FileOverlapsRange f queryStart queryEnd)

/-- A record to accumulate, as produced by the line-parser workers
(`CostRecord` in the source; `float64` costs as exact rationals, `time.Time`
as epoch seconds). -/
structure CostRecord where
  uuid : String
  requestID : Option String
  cost : Rat
  inputTokens : Int
  outputTokens : Int
  cacheReadTokens : Int
  cacheWriteTokens : Int
  inputCost : Rat
  outputCost : Rat
  cacheReadCost : Rat
  cacheWriteCost : Rat
  pricingKey : String
  timestamp : String
  fullTimestamp : Int
  hour : Int
  weekday : String
  cwd : String
  gitBranch : String
  fromHistory : Bool
  rawLine : List Char
deriving DecidableEq

/-- Aggregated metrics for a group (`Metrics` in the source). -/
structure Metrics where
  cost : Rat
  inputTokens : Int
  outputTokens : Int
  cacheReadTokens : Int
  cacheWriteTokens : Int
  inputCost : Rat
  outputCost : Rat
  cacheReadCost : Rat
  cacheWriteCost : Rat
deriving DecidableEq

/-- The zero value a Go `map[string]Metrics` lookup yields for a missing key. -/
def Metrics.zero : Metrics := ⟨0, 0, 0, 0, 0, 0, 0, 0, 0⟩

/-- Pointwise addition of two metrics values. -/
def Metrics.add (a b : Metrics) : Metrics :=
  ⟨a.cost + b.cost, a.inputTokens + b.inputTokens, a.outputTokens + b.outputTokens,
    a.cacheReadTokens + b.cacheReadTokens, a.cacheWriteTokens + b.cacheWriteTokens,
    a.inputCost + b.inputCost, a.outputCost + b.outputCost,
    a.cacheReadCost + b.cacheReadCost, a.cacheWriteCost + b.cacheWriteCost⟩

/-- The metrics contribution of one record: exactly the nine fields the
accumulator adds into a group (`m.Cost += record.Cost; ...`). -/
def recordMetrics (r : CostRecord) : Metrics :=
  ⟨r.cost, r.inputTokens, r.outputTokens, r.cacheReadTokens, r.cacheWriteTokens,
    r.inputCost, r.outputCost, r.cacheReadCost, r.cacheWriteCost⟩

/-- Go map lookup on an insertion-ordered association list. -/
def lookupA {α : Type} (m : List (String × α)) (k : String) : Option α :=
  (m.find? (fun p => p.1 = k)).map (fun p => p.2)

/-- Go map update on an insertion-ordered association list: replace in place
or append. -/
def insertA {α : Type} : List (String × α) → String → α → List (String × α)
  | [], k, v => [(k, v)]
  | (k', v') :: rest, k, v =>
    if k' = k then (k, v) :: rest else (k', v') :: insertA rest k v

/-- Go string-set insertion (`set[x] = true`). -/
def insertS (s : List String) (x : String) : List String :=
  if x ∈ s then s else s ++ [x]

/-- Fold one record into `metricsByGroup` under its group key, starting from
the zero value for an absent group (the `m := metricsByGroup[groupKey];
m.X += record.X; metricsByGroup[groupKey] = m` block). -/
def foldIntoGroup (gk : CostRecord → String) (mbg : List (String × Metrics))
    (r : CostRecord) : List (String × Metrics) :=
  insertA mbg (gk r) (Metrics.add ((lookupA mbg (gk r)).getD Metrics.zero) (recordMetrics r))

/-- State of the accumulator goroutine. -/
structure AccState where
  maxCostByRequestID : List (String × CostRecord)
  seenUUIDs : List String
  metricsByGroup : List (String × Metrics)
  allRecords : List CostRecord
  claudeRecords : List CostRecord
  historyUUIDs : List String
  claudeRange : Option (Int × Int)

/-- The empty accumulator state. -/
def accInit : AccState := ⟨[], [], [], [], [], [], none⟩

/-- Update of the primary-record time range (`claudeMinTime`/`claudeMaxTime`). -/
def updateRange (r : Option (Int × Int)) (t : Int) : Option (Int × Int) :=
  match r with
  | none => some (t, t)
  | some (lo, hi) => some (if t < lo then t else lo, if hi < t then t else hi)

/-- One iteration of the accumulator loop body (`for record := range costChan`):
track history UUIDs, track primary records and their time span, then either
retain the maximum-cost record per requestID or fold immediately with UUID
dedup. -/
def accStep (gk : CostRecord → String) (s : AccState) (r : CostRecord) : AccState :=
  let hU := if r.fromHistory ∧ r.uuid ≠ "" then insertS s.historyUUIDs r.uuid else s.historyUUIDs
  let cR := if ¬ r.fromHistory ∧ r.rawLine ≠ [] then s.claudeRecords ++ [r] else s.claudeRecords
  let rng := if ¬ r.fromHistory ∧ r.rawLine ≠ [] then updateRange s.claudeRange r.fullTimestamp
    else s.claudeRange
  match r.requestID with
  | some rid =>
    let mmap :=
      match lookupA s.maxCostByRequestID rid with
      | none => insertA s.maxCostByRequestID rid r
      | some existing =>
        if existing.cost < r.cost then insertA s.maxCostByRequestID rid r
        else s.maxCostByRequestID
    { s with
      historyUUIDs := hU
      claudeRecords := cR
      claudeRange := rng
      maxCostByRequestID := mmap }
  | none =>
    if r.uuid ≠ "" ∧ r.uuid ∈ s.seenUUIDs then
      { s with
        historyUUIDs := hU
        claudeRecords := cR
        claudeRange := rng }
    else
      { s with
        historyUUIDs := hU
        claudeRecords := cR
        claudeRange := rng
        seenUUIDs := if r.uuid ≠ "" then insertS s.seenUUIDs r.uuid else s.seenUUIDs
        metricsByGroup := foldIntoGroup gk s.metricsByGroup r
        allRecords := s.allRecords ++ [r] }

/-- The second pass after the record queue closes: fold every retained
maximum-cost record into the metrics and the record list. -/
def accFinish (gk : CostRecord → String) (s : AccState) : AccState :=
  s.maxCostByRequestID.foldl
    (fun st p =>
      { st with
        metricsByGroup := foldIntoGroup gk st.metricsByGroup p.2
        allRecords := st.allRecords ++ [p.2] })
    s

/-- The whole accumulator run over the stream of records it receives. -/
def runAccumulator (gk : CostRecord → String) (recs : List CostRecord) : AccState :=
  accFinish gk (recs.foldl (accStep gk) accInit)

/-- Sum of a list of metrics values, as the accumulator folds them. -/
def sumMetrics (l : List Metrics) : Metrics := l.foldl Metrics.add Metrics.zero

/-- Declarative total of a group: the pointwise sum of the contributions of
exactly the records in the list whose group key is `g`. -/
def groupTotal (gk : CostRecord → String) (g : String) (l : List CostRecord) : Metrics :=
  sumMetrics ((l.filter (fun r => gk r = g)).map recordMetrics)

/-- Invariant of the accumulator: for every group, the looked-up running total
equals the declarative group total over the records folded so far. -/
def MetricsInv (gk : CostRecord → String) (s : AccState) : Prop :=
  ∀ g, (lookupA s.metricsByGroup g).getD Metrics.zero = groupTotal gk g s.allRecords

/-- Seen-set update performed when a record is folded (`seenUUIDs[uuid] = true`
guarded by a non-empty uuid). -/
def updSeen (seen : List String) (r : CostRecord) : List String :=
  if r.uuid ≠ "" then insertS seen r.uuid else seen

/-- Reference first-occurrence dedup of a record stream: keep a record unless
its non-empty uuid was already seen; this is the effective filter the
accumulator applies to records without a requestID. -/
def dedupFirstAux (seen : List String) : List CostRecord → List CostRecord
  | [] => []
  | r :: rest =>
    if r.uuid ≠ "" ∧ r.uuid ∈ seen then dedupFirstAux seen rest
    else r :: dedupFirstAux (updSeen seen r) rest

/-- Concrete record with requestID `r1` and cost 1, for witnesses. -/
def wRecA : CostRecord :=
  { uuid := "a"
    requestID := some "r1"
    cost := 1
    inputTokens := 2
    outputTokens := 3
    cacheReadTokens := 0
    cacheWriteTokens := 0
    inputCost := 1
    outputCost := 0
    cacheReadCost := 0
    cacheWriteCost := 0
    pricingKey := "opus"
    timestamp := "2024-01-05"
    fullTimestamp := 1704412800
    hour := 0
    weekday := "Fri"
    cwd := ""
    gitBranch := ""
    fromHistory := false
    rawLine := ['x'] }

/-- Concrete record with requestID `r1` and cost 5/2, for witnesses. -/
def wRecB : CostRecord :=
  { wRecA with uuid := "b", cost := Rat.mk' 5 2, rawLine := ['y'] }

/-- Concrete record without requestID and with uuid `u1`, for witnesses. -/
def wRecC : CostRecord :=
  { wRecA with uuid := "u1", requestID := none, rawLine := ['z'] }

/-- Duplicate of `wRecC` as re-read from a history file, for witnesses. -/
def wRecD : CostRecord :=
  { wRecC with fromHistory := true, rawLine := [] }

/-- Strip one trailing carriage return from a scanned line, as
`bufio.ScanLines` does. -/
def stripCR (l : List Char) : List Char :=
  if l.getLast? = some '\r' then l.dropLast else l

/-- Tokens produced by a `bufio.Scanner` with `ScanLines`: lines split on
newlines, carriage returns stripped; a final token without a trailing newline
(for example a line truncated by a crash) is still returned. -/
def goScanLines (content : List Char) : List (List Char) :=
  if content = [] then []
  else
    (if content.getLast? = some '\n' then (goSplit '\n' content).dropLast
     else goSplit '\n' content).map stripCR

/-- Model of `LoadUUIDs` over a file's content (`none` = absent file, which
yields the empty set, not an error): scan line by line, skip empty lines,
skip corrupted lines, and collect the non-empty `uuid` fields into a set.
The external JSON decoder is abstracted by `dec`: `none` models an
`Unmarshal` error, `some u` a parsed line whose `uuid` field is `u`. -/
def LoadUUIDs (dec : List Char → Option String) (content : Option (List Char)) :
    List String :=
  match content with
  | none => []
  | some c =>
    (goScanLines c).foldl
      (fun ids line =>
        if line = [] then ids
        else
          match dec line with
          | none => ids
          | some u => if u ≠ "" then insertS ids u else ids) []

/-- Each raw line followed by a newline, in batch order: the byte sequence
`AppendRawLines` writes. -/
def encodeLines (lines : List (List Char)) : List Char :=
  lines.flatMap (fun l => l ++ ['\n'])

/-- Model of `AppendRawLines` on one file's content (`none` = file absent):
an empty batch returns before touching the filesystem; otherwise the file is
opened in append mode (created if absent) and each line plus a newline is
written after the existing bytes, which are never overwritten or reordered. -/
def AppendRawLines (content : Option (List Char)) (lines : List (List Char)) :
    Option (List Char) :=
  if lines = [] then content
  else some (content.getD [] ++ encodeLines lines)

/-- Concrete uuid decoder for witnesses: line `p` has uuid `pu`, line `q` has
uuid `qu`, anything else is corrupted. -/
def wDec : List Char → Option String :=
  fun line =>
    if line = ['p'] then some "pu"
    else if line = ['q'] then some "qu"
    else none

/-- A history directory: file names with their contents, in creation order. -/
abbrev HistFS := List (List Char × List Char)

/-- Content of a file in the history directory, `none` when absent. -/
def fsLookup (fs : HistFS) (name : List Char) : Option (List Char) :=
  (fs.find? (fun p => p.1 = name)).map (fun p => p.2)

/-- Replace the content of an existing file. -/
def fsUpdate : HistFS → List Char → List Char → HistFS
  | [], _, _ => []
  | (n, c) :: rest, name, content =>
    if n = name then (name, content) :: rest else (n, c) :: fsUpdate rest name content

/-- Effect of one `AppendRawLines` call on the directory. -/
def fsAppendFile (fs : HistFS) (name : List Char) (lines : List (List Char)) : HistFS :=
  if lines = [] then fs
  else
    match fsLookup fs name with
    | some content => fsUpdate fs name (content ++ encodeLines lines)
    | none => fs ++ [(name, encodeLines lines)]

/-- Model of `ListHistoryFiles`: the `.jsonl` files of the directory (an
absent directory is the empty listing, not an error). -/
def ListHistoryFiles (fs : HistFS) : List (List Char) :=
  (fs.map Prod.fst).filter (fun n => jsonlSuffix.isSuffixOf n)

/-- Local calendar date string of a timestamp (Go layout `2006-01-02`), the
grouping key of `saveToHistory`. -/
def dateKey (loc : GoLocation) (t : Int) : List Char := formatDate (loc.toCivil t)

/-- The dedup set after the on-demand loading pass of `saveToHistory`: for
every listed file in range that was not already loaded during discovery, its
uuids are merged into the set carried over from the run. -/
def effectiveUUIDs (dec : List Char → Option String) (fs : HistFS)
    (historyUUIDs : List String) (loaded : List (List Char))
    (files : List (List Char)) : List String :=
  files.foldl
    (fun hu f => if f ∈ loaded then hu else (LoadUUIDs dec (fsLookup fs f)).foldl insertS hu)
    historyUUIDs

/-- The record-skipping test of `saveToHistory`: a record is kept for the
append unless its non-empty uuid is already in history, or it has no raw
line. -/
def keepRecord (hU : List String) (r : CostRecord) : Bool :=
  decide (¬ (r.uuid ≠ "" ∧ r.uuid ∈ hU) ∧ r.rawLine ≠ [])

/-- Append a record to its date's group, preserving first-appearance group
order (the model of `recordsByDate[date] = append(recordsByDate[date], record)`). -/
def appendGroup (groups : List (List Char × List CostRecord)) (k : List Char)
    (r : CostRecord) : List (List Char × List CostRecord) :=
  match groups with
  | [] => [(k, [r])]
  | (k2, rs) :: rest =>
    if k2 = k then (k, rs ++ [r]) :: rest else (k2, rs) :: appendGroup rest k r

/-- The grouping pass of `saveToHistory`: kept records, grouped by their
local calendar date. -/
def recordsByDate (loc : GoLocation) (hU : List String) (recs : List CostRecord) :
    List (List Char × List CostRecord) :=
  recs.foldl
    (fun groups r =>
      if r.uuid ≠ "" ∧ r.uuid ∈ hU then groups
      else if r.rawLine = [] then groups
      else appendGroup groups (dateKey loc r.fullTimestamp) r)
    []

/-- The dedup set used by `saveToHistory`: the run's `historyUUIDs` merged
with the uuids of every listed history file overlapping
`[claudeMinTime, claudeMaxTime + 24h)` that discovery had not already loaded. -/
def saveDedupSet (dec : List Char → Option String) (fs : HistFS)
    (historyUUIDs : List String) (loaded : List (List Char))
    (claudeMinTime claudeMaxTime : Int) : List String :=
  effectiveUUIDs dec fs historyUUIDs loaded
    (FilterFilesForRange (ListHistoryFiles fs) claudeMinTime (claudeMaxTime + 86400))

/-- The append operations `saveToHistory` performs: for each non-empty date
group, the history file of the first record's timestamp receives the group's
raw lines. An empty record list means no history files are listed, loaded or
written at all. -/
def savePlan (loc : GoLocation) (dec : List Char → Option String) (fs : HistFS)
    (claudeRecords : List CostRecord) (historyUUIDs : List String)
    (loaded : List (List Char)) (claudeMinTime claudeMaxTime : Int) :
    List (List Char × List (List Char)) :=
  if claudeRecords = [] then []
  else
    let hU := saveDedupSet dec fs historyUUIDs loaded claudeMinTime claudeMaxTime
    ((recordsByDate loc hU claudeRecords).filter (fun g => ¬ g.2 = [])).map
      (fun g =>
        match g.2 with
        | [] => ([], [])
        | r0 :: _ => (HistoryFilename loc r0.fullTimestamp, g.2.map (fun r => r.rawLine)))

/-- Model of `saveToHistory`: perform the planned appends on the directory. -/
def saveToHistory (loc : GoLocation) (dec : List Char → Option String) (fs : HistFS)
    (claudeRecords : List CostRecord) (historyUUIDs : List String)
    (loaded : List (List Char)) (claudeMinTime claudeMaxTime : Int) : HistFS :=
  (savePlan loc dec fs claudeRecords historyUUIDs loaded claudeMinTime claudeMaxTime).foldl
    (fun fs2 pr => fsAppendFile fs2 pr.1 pr.2) fs

/-- Concrete record with empty uuid and no requestID, for witnesses. -/
def wRecE : CostRecord :=
  { wRecC with uuid := "", rawLine := ['w'] }

/-- State of the file-reader / line-parser / accumulator pipeline: channel
contents as multisets, items held by in-flight workers, the accumulator's
arrival list, and the close/fold flags of the shutdown sequence. -/
structure PipeState where
  fileQ : Multiset (List (List Char))
  reading : Multiset (List (List Char))
  lineQ : Multiset (List Char)
  parsing : Multiset (List Char)
  recQ : Multiset CostRecord
  acc : List CostRecord
  lineClosed : Bool
  recClosed : Bool
  folded : Bool

/-- One interleaving step of the pipeline: a reader takes a file and emits
its non-empty lines to lineChan, a parser takes a line and emits the parsed
record (or drops it) to costChan, the accumulator consumes records; the main
goroutine closes lineChan only once every reader is done (fileChan drained,
no file in flight), closes costChan only once every parser is done, and the
accumulator folds only once costChan is closed and drained. -/
inductive Step (parse : List Char → Option CostRecord) : PipeState → PipeState → Prop where
  | takeFile (f : List (List Char)) (fq rd : Multiset (List (List Char)))
      (lq pq : Multiset (List Char)) (rq : Multiset CostRecord) (acc : List CostRecord)
      (lc rc fd : Bool) :
      Step parse ⟨f ::ₘ fq, rd, lq, pq, rq, acc, lc, rc, fd⟩
        ⟨fq, f ::ₘ rd, lq, pq, rq, acc, lc, rc, fd⟩
  | emitLine (l : List Char) (rest : List (List Char)) (fq rd : Multiset (List (List Char)))
      (lq pq : Multiset (List Char)) (rq : Multiset CostRecord) (acc : List CostRecord)
      (lc rc fd : Bool) :
      Step parse ⟨fq, (l :: rest) ::ₘ rd, lq, pq, rq, acc, lc, rc, fd⟩
        ⟨fq, rest ::ₘ rd, if l = [] then lq else l ::ₘ lq, pq, rq, acc, lc, rc, fd⟩
  | fileDone (fq rd : Multiset (List (List Char))) (lq pq : Multiset (List Char))
      (rq : Multiset CostRecord) (acc : List CostRecord) (lc rc fd : Bool) :
      Step parse ⟨fq, ([] : List (List Char)) ::ₘ rd, lq, pq, rq, acc, lc, rc, fd⟩
        ⟨fq, rd, lq, pq, rq, acc, lc, rc, fd⟩
  | closeLine (lq pq : Multiset (List Char)) (rq : Multiset CostRecord)
      (acc : List CostRecord) (rc fd : Bool) :
      Step parse ⟨0, 0, lq, pq, rq, acc, false, rc, fd⟩
        ⟨0, 0, lq, pq, rq, acc, true, rc, fd⟩
  | takeLine (l : List Char) (fq rd : Multiset (List (List Char)))
      (lq pq : Multiset (List Char)) (rq : Multiset CostRecord) (acc : List CostRecord)
      (lc rc fd : Bool) :
      Step parse ⟨fq, rd, l ::ₘ lq, pq, rq, acc, lc, rc, fd⟩
        ⟨fq, rd, lq, l ::ₘ pq, rq, acc, lc, rc, fd⟩
  | parseDone (l : List Char) (fq rd : Multiset (List (List Char)))
      (lq pq : Multiset (List Char)) (rq : Multiset CostRecord) (acc : List CostRecord)
      (lc rc fd : Bool) :
      Step parse ⟨fq, rd, lq, l ::ₘ pq, rq, acc, lc, rc, fd⟩
        ⟨fq, rd, lq, pq, ((parse l).toList : Multiset CostRecord) + rq, acc, lc, rc, fd⟩
  | closeRec (fq rd : Multiset (List (List Char))) (rq : Multiset CostRecord)
      (acc : List CostRecord) (fd : Bool) :
      Step parse ⟨fq, rd, 0, 0, rq, acc, true, false, fd⟩
        ⟨fq, rd, 0, 0, rq, acc, true, true, fd⟩
  | consume (r : CostRecord) (fq rd : Multiset (List (List Char)))
      (lq pq : Multiset (List Char)) (rq : Multiset CostRecord) (acc : List CostRecord)
      (lc rc fd : Bool) :
      Step parse ⟨fq, rd, lq, pq, r ::ₘ rq, acc, lc, rc, fd⟩
        ⟨fq, rd, lq, pq, rq, acc ++ [r], lc, rc, fd⟩
  | fold (fq rd : Multiset (List (List Char))) (lq pq : Multiset (List Char))
      (acc : List CostRecord) (lc : Bool) :
      Step parse ⟨fq, rd, lq, pq, 0, acc, lc, true, false⟩
        ⟨fq, rd, lq, pq, 0, acc, lc, true, true⟩

/-- Records produced from one file: its non-empty lines that parse. -/
def fileRecs (parse : List Char → Option CostRecord) (f : List (List Char)) :
    List CostRecord :=
  (f.filter (fun l => !l.isEmpty)).filterMap parse

/-- Initial pipeline state: all files sent on fileChan, nothing in flight. -/
def initState (files : List (List (List Char))) : PipeState :=
  ⟨↑files, 0, 0, 0, 0, [], false, false, false⟩

/-- Records still to arrive at the accumulator plus those arrived. -/
def pendingRecs (parse : List Char → Option CostRecord) (s : PipeState) :
    Multiset CostRecord :=
  s.fileQ.bind (fun f => (fileRecs parse f : Multiset CostRecord)) +
  s.reading.bind (fun f => (fileRecs parse f : Multiset CostRecord)) +
  s.lineQ.bind (fun l => ((parse l).toList : Multiset CostRecord)) +
  s.parsing.bind (fun l => ((parse l).toList : Multiset CostRecord)) +
  s.recQ + ↑s.acc

/-- Pipeline invariant: conservation of records plus the shutdown-order
facts that each close flag certifies its upstream stage fully drained. -/
def PipeInv (parse : List Char → Option CostRecord)
    (input : List (List (List Char))) (s : PipeState) : Prop :=
  pendingRecs parse s = ↑(input.flatMap (fileRecs parse)) ∧
  (s.lineClosed = true → s.fileQ = 0 ∧ s.reading = 0) ∧
  (s.recClosed = true → s.lineClosed = true ∧ s.lineQ = 0 ∧ s.parsing = 0) ∧
  (s.folded = true → s.recClosed = true ∧ s.recQ = 0)

/-- Concrete parser for the pipeline witness. -/
def wParse : List Char → Option CostRecord :=
  fun l => if l = ['p'] then some wRecA else none

/-- Final pipeline state of the witness run. -/
def wPipeFinal : PipeState :=
  ⟨0, 0, 0, 0, 0, [wRecA], true, true, true⟩

theorem digitChar_mem (n : Nat) (h : n < 10) : digitChar n ∈ digitChars := by
  interval_cases n <;> decide

theorem digitVal_digitChar (n : Nat) (h : n < 10) : digitVal (digitChar n) = some n := by
  interval_cases n <;> decide

theorem natDigitsAux_mem (fuel n : Nat) : ∀ c ∈ natDigitsAux fuel n, c ∈ digitChars := by
  induction fuel generalizing n with
  | zero => intro c hc; simp [natDigitsAux] at hc
  | succ fuel ih =>
    intro c hc
    by_cases h : n < 10
    · simp only [natDigitsAux, if_pos h, List.mem_singleton] at hc
      exact hc ▸ digitChar_mem n h
    · simp only [natDigitsAux, if_neg h, List.mem_append, List.mem_singleton] at hc
      rcases hc with hc | hc
      · exact ih (n / 10) c hc
      · exact hc ▸ digitChar_mem (n % 10) (Nat.mod_lt n (by omega))

theorem natDigitsAux_ne_nil (fuel n : Nat) (h : 0 < fuel) : natDigitsAux fuel n ≠ [] := by
  cases fuel with
  | zero => omega
  | succ fuel =>
    by_cases h10 : n < 10
    · simp [natDigitsAux, if_pos h10]
    · simp only [natDigitsAux, if_neg h10]
      intro hcon
      rcases List.append_eq_nil.mp hcon with ⟨_, h2⟩
      exact List.cons_ne_nil _ _ h2

theorem parseDigitsAux_append (l1 l2 : List Char) (a : Nat) :
    parseDigitsAux (l1 ++ l2) a =
      match parseDigitsAux l1 a with
      | some b => parseDigitsAux l2 b
      | none => none := by
  induction l1 generalizing a with
  | nil => simp [parseDigitsAux]
  | cons c cs ih =>
    simp only [List.cons_append, parseDigitsAux]
    cases digitVal c with
    | none => rfl
    | some d => exact ih (a * 10 + d)

theorem parseDigitsAux_natDigitsAux (fuel : Nat) :
    ∀ n acc, n < 10 ^ fuel →
      parseDigitsAux (natDigitsAux fuel n) acc =
        some (acc * 10 ^ (natDigitsAux fuel n).length + n) := by
  induction fuel with
  | zero =>
    intro n acc h
    have hn : n = 0 := by omega
    subst hn
    simp [natDigitsAux, parseDigitsAux]
  | succ fuel ih =>
    intro n acc h
    by_cases h10 : n < 10
    · simp [natDigitsAux, if_pos h10, parseDigitsAux, digitVal_digitChar n h10]
    · have hdiv : n / 10 < 10 ^ fuel := by
        have : n < 10 * 10 ^ fuel := by
          calc n < 10 ^ (fuel + 1) := h
          _ = 10 * 10 ^ fuel := by ring
        exact Nat.div_lt_of_lt_mul this
      simp only [natDigitsAux, if_neg h10]
      rw [parseDigitsAux_append, ih (n / 10) acc hdiv]
      have hm : n % 10 < 10 := Nat.mod_lt n (by omega)
      simp only [parseDigitsAux, digitVal_digitChar (n % 10) hm]
      have hlen : (natDigitsAux fuel (n / 10) ++ [digitChar (n % 10)]).length =
          (natDigitsAux fuel (n / 10)).length + 1 := by simp
      rw [hlen]
      congr 1
      have : 10 * (n / 10) + n % 10 = n := Nat.div_add_mod n 10
      ring_nf
      omega

theorem goParseInt_natDigitsRec (n : Nat) (h : n < 2 ^ 63) :
    goParseInt (natDigitsRec n) = some (n : Int) := by
  have h20 : n < 10 ^ 20 := by
    have h2 : (2 : Nat) ^ 63 < 10 ^ 20 := by norm_num
    omega
  have hparse : parseDigitsAux (natDigitsRec n) 0 = some n := by
    have hh := parseDigitsAux_natDigitsAux 20 n 0 h20
    simpa [natDigitsRec] using hh
  have hne : natDigitsRec n ≠ [] := natDigitsAux_ne_nil 20 n (by omega)
  cases hl : natDigitsRec n with
  | nil => exact absurd hl hne
  | cons c rest =>
    have hc : c ∈ digitChars := by
      have hm := natDigitsAux_mem 20 n c
      rw [show natDigitsAux 20 n = natDigitsRec n from rfl, hl] at hm
      exact hm (List.mem_cons_self c rest)
    have hcd : ¬ c = '-' ∧ ¬ c = '+' := by fin_cases hc <;> exact ⟨by decide, by decide⟩
    rw [hl] at hparse
    have hint : (n : Int) < 2 ^ 63 := by exact_mod_cast h
    simp only [goParseInt, if_neg hcd.1, if_neg hcd.2, parseDigits, hparse, if_pos hint]

theorem goSplit_no_sep (sep : Char) (l : List Char) (h : sep ∉ l) : goSplit sep l = [l] := by
  induction l with
  | nil => rfl
  | cons c cs ih =>
    have hc : ¬ c = sep := fun hh => h (hh ▸ List.mem_cons_self c cs)
    have ihcs := ih (fun hm => h (List.mem_cons_of_mem c hm))
    simp only [goSplit, if_neg hc, ihcs]

theorem goSplit_sep_append (sep : Char) (a b : List Char) (h : sep ∉ a) :
    goSplit sep (a ++ sep :: b) = a :: goSplit sep b := by
  induction a with
  | nil => simp [goSplit]
  | cons c cs ih =>
    have hc : ¬ c = sep := fun hh => h (hh ▸ List.mem_cons_self c cs)
    have ihcs := ih (fun hm => h (List.mem_cons_of_mem c hm))
    simp only [List.cons_append, goSplit, if_neg hc, List.append_eq, ihcs]

theorem goTrimSuffix_append (a s : List Char) : goTrimSuffix (a ++ s) s = a := by
  have hsuf : s.isSuffixOf (a ++ s) := by
    rw [List.isSuffixOf_iff_suffix]
    exact ⟨a, rfl⟩
  simp only [goTrimSuffix, if_pos hsuf, List.length_append]
  have : a.length + s.length - s.length = a.length := by omega
  rw [this]
  exact List.take_left a s

theorem goFilepathBase_no_slash (path : List Char) (hne : path ≠ [])
    (h : '/' ∉ path) : goFilepathBase path = path := by
  have hrev : ∀ c ∈ path.reverse, ¬ (c = '/') := by
    intro c hc hcontra
    exact h (hcontra ▸ List.mem_reverse.mp hc)
  have hdrop : path.reverse.dropWhile (fun c => c = '/') = path.reverse := by
    cases hp : path.reverse with
    | nil => rfl
    | cons c cs =>
      have : ¬ ((fun c => c = '/') c : Bool) = true := by
        simp only [decide_eq_true_eq]
        exact hrev c (hp ▸ List.mem_cons_self c cs)
      exact List.dropWhile_cons_of_neg this
  have htake : path.reverse.takeWhile (fun c => c ≠ '/') = path.reverse := by
    rw [List.takeWhile_eq_self_iff]
    intro c hc
    simp only [ne_eq, decide_not, Bool.not_eq_true', decide_eq_false_iff_not]
    exact fun hcontra => h (hcontra ▸ List.mem_reverse.mp hc)
  have hrevne : path.reverse ≠ [] := by
    intro hcon
    exact hne (by simpa using congrArg List.reverse hcon)
  simp only [goFilepathBase, if_neg hne, hdrop, List.reverse_reverse, if_neg hne, htake]

theorem isLeap_iff (y : Int) :
    isLeap y = true ↔ ((y % 4 = 0 ∧ y % 100 ≠ 0) ∨ y % 400 = 0) := by
  simp [isLeap, Bool.or_eq_true, Bool.and_eq_true, beq_iff_eq, bne_iff_ne]

theorem daysFromCivil_nextDay (c : CivilDate) (h : c.Valid) :
    daysFromCivil (nextDay c) = daysFromCivil c + 1 := by
  obtain ⟨y, m, d⟩ := c
  simp only [CivilDate.Valid] at h
  obtain ⟨hy0, hy9, hm1, hm12, hd1, hdle⟩ := h
  by_cases hlt : d < daysInMonth y m
  · simp only [nextDay, if_pos hlt, daysFromCivil, yAdj, doyOf, marchMonth]
    by_cases hm2 : m ≤ 2 <;> simp only [if_pos, if_neg, hm2, ite_true, ite_false] <;> omega
  · have hdeq : d = daysInMonth y m := by omega
    by_cases hmlt : m < 12
    · by_cases hFeb : m = 2
      · subst hFeb
        by_cases hl : isLeap y = true
        · have hlf := (isLeap_iff y).mp hl
          have hdim : daysInMonth y 2 = 29 := by simp [daysInMonth, hl]
          rw [hdim] at hdeq
          subst hdeq
          norm_num [nextDay, daysInMonth, hl, daysFromCivil, yAdj, doyOf, marchMonth]
          omega
        · have hlf : ¬ ((y % 4 = 0 ∧ y % 100 ≠ 0) ∨ y % 400 = 0) :=
            fun hh => hl ((isLeap_iff y).mpr hh)
          have hdim : daysInMonth y 2 = 28 := by simp [daysInMonth, hl]
          rw [hdim] at hdeq
          subst hdeq
          norm_num [nextDay, daysInMonth, hl, daysFromCivil, yAdj, doyOf, marchMonth]
          omega
      · interval_cases m
        · norm_num [daysInMonth] at hdeq
          subst hdeq
          norm_num [nextDay, daysInMonth, daysFromCivil, yAdj, doyOf, marchMonth]
          omega
        · exact absurd rfl hFeb
        · norm_num [daysInMonth] at hdeq
          subst hdeq
          norm_num [nextDay, daysInMonth, daysFromCivil, yAdj, doyOf, marchMonth]
          omega
        · norm_num [daysInMonth] at hdeq
          subst hdeq
          norm_num [nextDay, daysInMonth, daysFromCivil, yAdj, doyOf, marchMonth]
          omega
        · norm_num [daysInMonth] at hdeq
          subst hdeq
          norm_num [nextDay, daysInMonth, daysFromCivil, yAdj, doyOf, marchMonth]
          omega
        · norm_num [daysInMonth] at hdeq
          subst hdeq
          norm_num [nextDay, daysInMonth, daysFromCivil, yAdj, doyOf, marchMonth]
          omega
        · norm_num [daysInMonth] at hdeq
          subst hdeq
          norm_num [nextDay, daysInMonth, daysFromCivil, yAdj, doyOf, marchMonth]
          omega
        · norm_num [daysInMonth] at hdeq
          subst hdeq
          norm_num [nextDay, daysInMonth, daysFromCivil, yAdj, doyOf, marchMonth]
          omega
        · norm_num [daysInMonth] at hdeq
          subst hdeq
          norm_num [nextDay, daysInMonth, daysFromCivil, yAdj, doyOf, marchMonth]
          omega
        · norm_num [daysInMonth] at hdeq
          subst hdeq
          norm_num [nextDay, daysInMonth, daysFromCivil, yAdj, doyOf, marchMonth]
          omega
        · norm_num [daysInMonth] at hdeq
          subst hdeq
          norm_num [nextDay, daysInMonth, daysFromCivil, yAdj, doyOf, marchMonth]
          omega
    · have hm12e : m = 12 := by omega
      subst hm12e
      norm_num [daysInMonth] at hdeq
      subst hdeq
      norm_num [nextDay, daysInMonth, daysFromCivil, yAdj, doyOf, marchMonth]
      omega

theorem natDigitsRec_mem (n : Nat) : ∀ c ∈ natDigitsRec n, c ∈ digitChars :=
  natDigitsAux_mem 20 n

theorem all_digits_no_dash (l : List Char) (h : ∀ c ∈ l, c ∈ digitChars) : '-' ∉ l :=
  fun hm => absurd (h '-' hm) (by decide)

theorem pad2_mem (n : Nat) : ∀ c ∈ pad2 n, c ∈ digitChars := by
  intro c hc
  by_cases h : n < 10
  · simp only [pad2, if_pos h, List.mem_cons] at hc
    rcases hc with hc | hc
    · subst hc; decide
    · exact natDigitsRec_mem n c hc
  · simp only [pad2, if_neg h] at hc
    exact natDigitsRec_mem n c hc

theorem pad4_mem (n : Nat) : ∀ c ∈ pad4 n, c ∈ digitChars := by
  intro c hc
  simp only [pad4, List.mem_append] at hc
  rcases hc with hc | hc
  · have heq := List.eq_of_mem_replicate hc
    subst heq; decide
  · exact natDigitsRec_mem n c hc

theorem goSplit_five (A B C S E : List Char)
    (hA : '-' ∉ A) (hB : '-' ∉ B) (hC : '-' ∉ C) (hS : '-' ∉ S) (hE : '-' ∉ E) :
    goSplit '-' (A ++ ('-' :: (B ++ ('-' :: (C ++ ('-' :: (S ++ ('-' :: E)))))))) =
      [A, B, C, S, E] := by
  rw [goSplit_sep_append _ _ _ hA, goSplit_sep_append _ _ _ hB, goSplit_sep_append _ _ _ hC,
    goSplit_sep_append _ _ _ hS, goSplit_no_sep _ _ hE]

set_option maxHeartbeats 1000000 in
theorem ParseHistoryFilename_HistoryFilename (loc : GoLocation) (t : Int)
    (hs0 : 0 ≤ loc.fromCivil (loc.toCivil t))
    (hsb : loc.fromCivil (loc.toCivil t) < 2 ^ 63)
    (he0 : 0 ≤ loc.fromCivil (nextDay (loc.toCivil t)))
    (heb : loc.fromCivil (nextDay (loc.toCivil t)) < 2 ^ 63) :
    ParseHistoryFilename (HistoryFilename loc t) =
      some (loc.fromCivil (loc.toCivil t), loc.fromCivil (nextDay (loc.toCivil t))) := by
  set d := loc.toCivil t with hd
  set s := loc.fromCivil d with hs
  set e := loc.fromCivil (nextDay d) with he
  set A := pad4 d.year.toNat with hA
  set B := pad2 d.month.toNat with hB
  set C := pad2 d.day.toNat with hC
  set S := natDigitsRec s.toNat with hS
  set E := natDigitsRec e.toNat with hE
  have hSfmt : formatInt s = S := by
    rw [hS, formatInt, if_neg (by omega)]
  have hEfmt : formatInt e = E := by
    rw [hE, formatInt, if_neg (by omega)]
  have hfile : HistoryFilename loc t =
      (A ++ ('-' :: (B ++ ('-' :: (C ++ ('-' :: (S ++ ('-' :: E)))))))) ++ jsonlSuffix := by
    simp only [HistoryFilename, formatDate, ← hd, ← hs, ← he, hSfmt, hEfmt, ← hA, ← hB, ← hC,
      List.cons_append, List.append_assoc]
  have hAm : ∀ c ∈ A, c ∈ digitChars := pad4_mem _
  have hBm : ∀ c ∈ B, c ∈ digitChars := pad2_mem _
  have hCm : ∀ c ∈ C, c ∈ digitChars := pad2_mem _
  have hSm : ∀ c ∈ S, c ∈ digitChars := natDigitsRec_mem _
  have hEm : ∀ c ∈ E, c ∈ digitChars := natDigitsRec_mem _
  have hmem : ∀ c ∈ HistoryFilename loc t, c ∈ digitChars ∨ c = '-' ∨ c ∈ jsonlSuffix := by
    intro c hc
    rw [hfile] at hc
    rcases List.mem_append.mp hc with h | hj
    · rcases List.mem_append.mp h with h | h
      · exact Or.inl (hAm c h)
      · rcases List.mem_cons.mp h with h | h
        · exact Or.inr (Or.inl h)
        · rcases List.mem_append.mp h with h | h
          · exact Or.inl (hBm c h)
          · rcases List.mem_cons.mp h with h | h
            · exact Or.inr (Or.inl h)
            · rcases List.mem_append.mp h with h | h
              · exact Or.inl (hCm c h)
              · rcases List.mem_cons.mp h with h | h
                · exact Or.inr (Or.inl h)
                · rcases List.mem_append.mp h with h | h
                  · exact Or.inl (hSm c h)
                  · rcases List.mem_cons.mp h with h | h
                    · exact Or.inr (Or.inl h)
                    · exact Or.inl (hEm c h)
    · exact Or.inr (Or.inr hj)
  have hne : HistoryFilename loc t ≠ [] := by
    rw [hfile]
    intro hcon
    rcases List.append_eq_nil.mp hcon with ⟨h1, _⟩
    rcases List.append_eq_nil.mp h1 with ⟨_, h2⟩
    exact List.cons_ne_nil _ _ h2
  have hnos : '/' ∉ HistoryFilename loc t := by
    intro hm
    rcases hmem '/' hm with h | h | h
    · exact absurd h (by decide)
    · exact absurd h (by decide)
    · exact absurd h (by decide)
  have hsplit : goSplit '-' (goTrimSuffix (goFilepathBase (HistoryFilename loc t)) jsonlSuffix) =
      [A, B, C, S, E] := by
    rw [goFilepathBase_no_slash _ hne hnos, hfile, goTrimSuffix_append,
      goSplit_five A B C S E (all_digits_no_dash A hAm) (all_digits_no_dash B hBm)
        (all_digits_no_dash C hCm) (all_digits_no_dash S hSm) (all_digits_no_dash E hEm)]
  have hSparse : goParseInt S = some s := by
    rw [hS, goParseInt_natDigitsRec s.toNat (by omega)]
    congr 1
    omega
  have hEparse : goParseInt E = some e := by
    rw [hE, goParseInt_natDigitsRec e.toNat (by omega)]
    congr 1
    omega
  show parseHistoryParts
      (goSplit '-' (goTrimSuffix (goFilepathBase (HistoryFilename loc t)) jsonlSuffix)) = _
  have h3 : ([A, B, C, S, E] : List (List Char)).getD 3 [] = S := by rfl
  have h4 : ([A, B, C, S, E] : List (List Char)).getD 4 [] = E := by rfl
  rw [hsplit, parseHistoryParts,
    if_neg (by norm_num : ¬ ([A, B, C, S, E] : List (List Char)).length < 5),
    h3, h4, hSparse, hEparse]

/-- Claim C3, counterexample: the round trip is not successful for every local
time `t`. For `t` before the Unix epoch (here `t = -1` in UTC) the start epoch
is negative, its minus sign introduces extra dashes, field 3 of the dash-split
is empty, and parsing fails. -/
theorem claim_C3_counterexample :
    ParseHistoryFilename (HistoryFilename (fixedGoLocation 0) (-1)) = none := by decide

/-- Claim C3, amended: for any local time `t` whose local calendar day starts
and ends at a non-negative epoch inside the int64 range (all days from
1970-01-01 on), `ParseHistoryFilename (HistoryFilename t)` succeeds and returns
exactly `(startOfDay, startOfNextDay)`; and for a DST-free location at a fixed
UTC offset the recovered range is exactly 86400 seconds long (for a location
with DST, `end - start` is by construction the local wall-clock day length
`fromCivil (nextDay d) - fromCivil d`). -/
theorem claim_C3_amended (loc : GoLocation) (t : Int)
    (hv : (loc.toCivil t).Valid)
    (hs0 : 0 ≤ loc.fromCivil (loc.toCivil t))
    (hsb : loc.fromCivil (loc.toCivil t) < 2 ^ 63)
    (he0 : 0 ≤ loc.fromCivil (nextDay (loc.toCivil t)))
    (heb : loc.fromCivil (nextDay (loc.toCivil t)) < 2 ^ 63) :
    ParseHistoryFilename (HistoryFilename loc t) =
      some (loc.fromCivil (loc.toCivil t), loc.fromCivil (nextDay (loc.toCivil t))) ∧
    (∀ off : Int, (∀ dd : CivilDate, loc.fromCivil dd = 86400 * daysFromCivil dd - off) →
      loc.fromCivil (nextDay (loc.toCivil t)) - loc.fromCivil (loc.toCivil t) = 86400) := by
  refine ⟨ParseHistoryFilename_HistoryFilename loc t hs0 hsb he0 heb, ?_⟩
  intro off hoff
  rw [hoff, hoff, daysFromCivil_nextDay _ hv]
  ring

/-- Claim C3, witness: the amended round trip evaluated in UTC at
`t = 86460` (1970-01-02 00:01:00), whose day is `[86400, 172800)`. -/
theorem claim_C3_witness :
    ParseHistoryFilename (HistoryFilename (fixedGoLocation 0) 86460) =
      some (86400, 172800) ∧ (172800 : Int) - 86400 = 86400 := by
  have h := claim_C3_amended (fixedGoLocation 0) 86460 (by decide) (by decide)
    (by decide) (by decide) (by decide)
  have h86 := h.2 0 (fun dd => by simp [fixedGoLocation])
  exact ⟨h.1.trans (by decide), by norm_num⟩

/-- Claim C4: `FilterFilesForRange` keeps a file exactly when it occurs in the
input list and its filename-embedded interval strictly overlaps the query
interval (`fileStart < queryEnd` and `fileEnd > queryStart`); in particular a
file ending exactly at `queryStart`, or starting exactly at `queryEnd`, is
excluded. The test is a pure function of the filename. -/
theorem claim_C4 (files : List (List Char)) (queryStart queryEnd : Int) (f : List Char) :
    (f ∈ FilterFilesForRange files queryStart queryEnd ↔
      f ∈ files ∧ ∃ fileStart fileEnd,
        ParseHistoryFilename f = some (fileStart, fileEnd) ∧
        fileStart < queryEnd ∧ fileEnd > queryStart) ∧
    (∀ fileStart fileEnd, ParseHistoryFilename f = some (fileStart, fileEnd) →
      (fileEnd = queryStart → f ∉ FilterFilesForRange files queryStart queryEnd) ∧
      (fileStart = queryEnd → f ∉ FilterFilesForRange files queryStart queryEnd)) := by
  have hiff : f ∈ FilterFilesForRange files queryStart queryEnd ↔
      f ∈ files ∧ ∃ fileStart fileEnd,
        ParseHistoryFilename f = some (fileStart, fileEnd) ∧
        fileStart < queryEnd ∧ fileEnd > queryStart := by
    rw [FilterFilesForRange, List.mem_filter]
    constructor
    · rintro ⟨hmem, hover⟩
      refine ⟨hmem, ?_⟩
      rw [FileOverlapsRange] at hover
      cases hp : ParseHistoryFilename f with
      | none => rw [hp] at hover; exact absurd hover (by simp)
      | some p =>
        obtain ⟨a, b⟩ := p
        rw [hp] at hover
        simp only [Bool.and_eq_true, decide_eq_true_eq] at hover
        exact ⟨a, b, rfl, hover.1, hover.2⟩
    · rintro ⟨hmem, a, b, hp, h1, h2⟩
      refine ⟨hmem, ?_⟩
      rw [FileOverlapsRange, hp]
      simp only [Bool.and_eq_true, decide_eq_true_eq]
      exact ⟨h1, h2⟩
  refine ⟨hiff, ?_⟩
  intro fileStart fileEnd hp
  constructor
  · intro hend hmem
    obtain ⟨-, a, b, hp2, -, hgt⟩ := hiff.mp hmem
    rw [hp] at hp2
    obtain ⟨rfl, rfl⟩ : fileStart = a ∧ fileEnd = b := by
      injection hp2 with h
      exact ⟨congrArg Prod.fst h, congrArg Prod.snd h⟩
    omega
  · intro hstart hmem
    obtain ⟨-, a, b, hp2, hlt, -⟩ := hiff.mp hmem
    rw [hp] at hp2
    obtain ⟨rfl, rfl⟩ : fileStart = a ∧ fileEnd = b := by
      injection hp2 with h
      exact ⟨congrArg Prod.fst h, congrArg Prod.snd h⟩
    omega

/-- Claim C4, witness: a file covering `[86400, 172800)` is excluded for the
query `[0, 86400)` (it starts exactly at `queryEnd`) and included for the
query `[0, 86401)`. -/
theorem claim_C4_witness :
    HistoryFilename (fixedGoLocation 0) 86460 ∉
      FilterFilesForRange [HistoryFilename (fixedGoLocation 0) 86460] 0 86400 ∧
    HistoryFilename (fixedGoLocation 0) 86460 ∈
      FilterFilesForRange [HistoryFilename (fixedGoLocation 0) 86460] 0 86401 := by
  constructor
  · exact ((claim_C4 [HistoryFilename (fixedGoLocation 0) 86460] 0 86400
      (HistoryFilename (fixedGoLocation 0) 86460)).2 86400 172800 (by decide)).2 rfl
  · exact ((claim_C4 [HistoryFilename (fixedGoLocation 0) 86460] 0 86401
      (HistoryFilename (fixedGoLocation 0) 86460)).1).mpr
      ⟨by decide, 86400, 172800, by decide, by norm_num, by norm_num⟩

theorem foldl_invariant {α β : Type} (f : β → α → β) (P : β → Prop) (l : List α) (b : β)
    (hb : P b) (h : ∀ s a, a ∈ l → P s → P (f s a)) : P (l.foldl f b) := by
  induction l generalizing b with
  | nil => exact hb
  | cons x xs ih =>
    exact ih (f b x) (h b x (List.mem_cons_self x xs) hb)
      (fun s a ha hs => h s a (List.mem_cons_of_mem x ha) hs)

theorem lookupA_cons {α : Type} (k' : String) (v' : α) (m : List (String × α)) (k : String) :
    lookupA ((k', v') :: m) k = if k' = k then some v' else lookupA m k := by
  rcases Decidable.em (k' = k) with h | h
  · rw [lookupA, List.find?_cons_of_pos _ (by simpa using h), if_pos h]
    rfl
  · rw [lookupA, List.find?_cons_of_neg _ (by simpa using h), if_neg h]
    rfl

theorem lookupA_insertA_self {α : Type} (m : List (String × α)) (k : String) (v : α) :
    lookupA (insertA m k v) k = some v := by
  induction m with
  | nil => simp [insertA, lookupA_cons]
  | cons p rest ih =>
    obtain ⟨k', v'⟩ := p
    by_cases h : k' = k
    · simp [insertA, h, lookupA_cons]
    · simp [insertA, h, lookupA_cons, ih]

theorem lookupA_insertA_ne {α : Type} (m : List (String × α)) (k k' : String) (v : α)
    (h : k' ≠ k) : lookupA (insertA m k v) k' = lookupA m k' := by
  have hkk : ¬ k = k' := fun hh => h hh.symm
  induction m with
  | nil => simp [insertA, lookupA_cons, hkk]
  | cons p rest ih =>
    obtain ⟨k0, v0⟩ := p
    by_cases h0 : k0 = k
    · subst h0
      simp [insertA, lookupA_cons, hkk]
    · simp [insertA, h0, lookupA_cons, ih]

theorem mem_insertA {α : Type} (m : List (String × α)) (k : String) (v : α) (p : String × α)
    (hp : p ∈ insertA m k v) : p = (k, v) ∨ p ∈ m := by
  induction m with
  | nil => simpa [insertA] using hp
  | cons q rest ih =>
    obtain ⟨k0, v0⟩ := q
    by_cases h0 : k0 = k
    · simp only [insertA, if_pos h0, List.mem_cons] at hp
      rcases hp with hp | hp
      · exact Or.inl hp
      · exact Or.inr (List.mem_cons_of_mem _ hp)
    · simp only [insertA, if_neg h0, List.mem_cons] at hp
      rcases hp with hp | hp
      · exact Or.inr (hp ▸ List.mem_cons_self _ _)
      · rcases ih hp with hh | hh
        · exact Or.inl hh
        · exact Or.inr (List.mem_cons_of_mem _ hh)

theorem insertA_keys {α : Type} (m : List (String × α)) (k : String) (v : α) :
    (insertA m k v).map Prod.fst =
      if k ∈ m.map Prod.fst then m.map Prod.fst else m.map Prod.fst ++ [k] := by
  induction m with
  | nil => simp [insertA]
  | cons p rest ih =>
    obtain ⟨k0, v0⟩ := p
    by_cases h0 : k0 = k
    · subst h0
      simp [insertA]
    · have hne : ¬ k = k0 := fun hh => h0 hh.symm
      by_cases hk : k ∈ rest.map Prod.fst
      · simp [insertA, h0, ih, hk, List.mem_cons, hne]
      · simp [insertA, h0, ih, hk, List.mem_cons, hne]

theorem insertA_keys_nodup {α : Type} (m : List (String × α)) (k : String) (v : α)
    (h : (m.map Prod.fst).Nodup) : ((insertA m k v).map Prod.fst).Nodup := by
  rw [insertA_keys]
  by_cases hk : k ∈ m.map Prod.fst
  · simpa [hk]
  · simp only [hk, if_false, List.nodup_append]
    refine ⟨h, List.nodup_singleton k, ?_⟩
    intro a ha hb
    rw [List.mem_singleton] at hb
    subst hb
    exact hk ha

theorem mem_insertS (s : List String) (x y : String) :
    y ∈ insertS s x ↔ y = x ∨ y ∈ s := by
  unfold insertS
  by_cases h : x ∈ s
  · simp only [if_pos h]
    constructor
    · exact Or.inr
    · rintro (rfl | hy)
      · exact h
      · exact hy
  · simp [if_neg h, List.mem_append, or_comm]

theorem accStep_maxMap (gk : CostRecord → String) (s : AccState) (r : CostRecord) :
    (accStep gk s r).maxCostByRequestID =
      match r.requestID with
      | some rid =>
        (match lookupA s.maxCostByRequestID rid with
          | none => insertA s.maxCostByRequestID rid r
          | some existing =>
            if existing.cost < r.cost then insertA s.maxCostByRequestID rid r
            else s.maxCostByRequestID)
      | none => s.maxCostByRequestID := by
  cases hr : r.requestID with
  | none =>
    simp only [accStep, hr]
    split <;> rfl
  | some rid => simp only [accStep, hr]

theorem accStep_allRecords (gk : CostRecord → String) (s : AccState) (r : CostRecord) :
    (accStep gk s r).allRecords =
      if r.requestID = none ∧ ¬ (r.uuid ≠ "" ∧ r.uuid ∈ s.seenUUIDs) then
        s.allRecords ++ [r]
      else s.allRecords := by
  cases hr : r.requestID with
  | none =>
    simp only [accStep, hr]
    by_cases hs : r.uuid ≠ "" ∧ r.uuid ∈ s.seenUUIDs
    · simp [hs]
    · simp [hs]
  | some rid => simp [accStep, hr]

theorem accStep_seenUUIDs (gk : CostRecord → String) (s : AccState) (r : CostRecord) :
    (accStep gk s r).seenUUIDs =
      if r.requestID = none ∧ r.uuid ≠ "" ∧ r.uuid ∉ s.seenUUIDs then
        insertS s.seenUUIDs r.uuid
      else s.seenUUIDs := by
  cases hr : r.requestID with
  | none =>
    simp only [accStep, hr]
    by_cases hs : r.uuid ≠ "" ∧ r.uuid ∈ s.seenUUIDs
    · simp [hs, hs.1, hs.2]
    · by_cases hu : r.uuid = ""
      · simp [hs, hu]
      · have hns : r.uuid ∉ s.seenUUIDs := fun hm => hs ⟨hu, hm⟩
        simp [hs, hu, hns]
  | some rid => simp [accStep, hr]

theorem accStep_metricsByGroup (gk : CostRecord → String) (s : AccState) (r : CostRecord) :
    (accStep gk s r).metricsByGroup =
      if r.requestID = none ∧ ¬ (r.uuid ≠ "" ∧ r.uuid ∈ s.seenUUIDs) then
        foldIntoGroup gk s.metricsByGroup r
      else s.metricsByGroup := by
  cases hr : r.requestID with
  | none =>
    simp only [accStep, hr]
    by_cases hs : r.uuid ≠ "" ∧ r.uuid ∈ s.seenUUIDs
    · simp [hs]
    · simp [hs]
  | some rid => simp [accStep, hr]

theorem accStep_claudeRecords (gk : CostRecord → String) (s : AccState) (r : CostRecord) :
    (accStep gk s r).claudeRecords =
      if ¬ r.fromHistory ∧ r.rawLine ≠ [] then s.claudeRecords ++ [r]
      else s.claudeRecords := by
  cases hr : r.requestID with
  | none =>
    simp only [accStep, hr]
    split <;> rfl
  | some rid => simp only [accStep, hr]

theorem accStep_historyUUIDs (gk : CostRecord → String) (s : AccState) (r : CostRecord) :
    (accStep gk s r).historyUUIDs =
      if r.fromHistory ∧ r.uuid ≠ "" then insertS s.historyUUIDs r.uuid
      else s.historyUUIDs := by
  cases hr : r.requestID with
  | none =>
    simp only [accStep, hr]
    split <;> rfl
  | some rid => simp only [accStep, hr]

theorem pass1_max_lookup (gk : CostRecord → String) (recs : List CostRecord) (rid : String) :
    lookupA ((recs.foldl (accStep gk) accInit).maxCostByRequestID) rid =
      (recs.filter (fun r => r.requestID = some rid)).argmax (fun r => r.cost) := by
  induction recs using List.reverseRecOn with
  | nil => simp [accInit, lookupA, List.argmax_nil]
  | append_singleton l r ih =>
    rw [List.foldl_append, List.foldl_cons, List.foldl_nil, List.filter_append, accStep_maxMap]
    cases hr : r.requestID with
    | none =>
      have hf : List.filter (fun x => decide (x.requestID = some rid)) [r] = [] := by
        simp [hr]
      rw [hf, List.append_nil]
      exact ih
    | some rid2 =>
      by_cases heq : rid2 = rid
      · subst heq
        have hf : List.filter (fun x => decide (x.requestID = some rid2)) [r] = [r] := by
          simp [hr]
        rw [hf, List.argmax_concat, ← ih]
        cases hl : lookupA ((l.foldl (accStep gk) accInit).maxCostByRequestID) rid2 with
        | none => simp [hl, lookupA_insertA_self]
        | some existing =>
          by_cases hc : existing.cost < r.cost
          · simp [hl, hc, lookupA_insertA_self]
          · simp [hl, hc]
      · have hf : List.filter (fun x => decide (x.requestID = some rid)) [r] = [] := by
          simp [hr, heq]
        rw [hf, List.append_nil, ← ih]
        have hne : rid ≠ rid2 := fun hh => heq hh.symm
        cases hl : lookupA ((l.foldl (accStep gk) accInit).maxCostByRequestID) rid2 with
        | none => simp [hl, lookupA_insertA_ne _ _ _ _ hne]
        | some existing =>
          by_cases hc : existing.cost < r.cost
          · simp [hl, hc, lookupA_insertA_ne _ _ _ _ hne]
          · simp [hl, hc]

theorem pass1_max_values (gk : CostRecord → String) (recs : List CostRecord) :
    ∀ p ∈ (recs.foldl (accStep gk) accInit).maxCostByRequestID,
      p.2.requestID = some p.1 := by
  apply foldl_invariant (accStep gk)
    (fun s => ∀ p ∈ s.maxCostByRequestID, p.2.requestID = some p.1)
  · intro p hp
    simp [accInit] at hp
  · intro s r _ hs p hp
    rw [accStep_maxMap] at hp
    cases hr : r.requestID with
    | none =>
      simp only [hr] at hp
      exact hs p hp
    | some rid =>
      simp only [hr] at hp
      cases hl : lookupA s.maxCostByRequestID rid with
      | none =>
        simp only [hl] at hp
        rcases mem_insertA _ _ _ _ hp with hh | hh
        · rw [hh]
          exact hr
        · exact hs p hh
      | some existing =>
        simp only [hl] at hp
        by_cases hc : existing.cost < r.cost
        · rw [if_pos hc] at hp
          rcases mem_insertA _ _ _ _ hp with hh | hh
          · rw [hh]
            exact hr
          · exact hs p hh
        · rw [if_neg hc] at hp
          exact hs p hp

theorem pass1_max_nodup (gk : CostRecord → String) (recs : List CostRecord) :
    ((recs.foldl (accStep gk) accInit).maxCostByRequestID.map Prod.fst).Nodup := by
  apply foldl_invariant (accStep gk)
    (fun s => (s.maxCostByRequestID.map Prod.fst).Nodup)
  · simp [accInit]
  · intro s r _ hs
    rw [accStep_maxMap]
    cases hr : r.requestID with
    | none => exact hs
    | some rid =>
      simp only
      cases hl : lookupA s.maxCostByRequestID rid with
      | none =>
        simp only [hl]
        exact insertA_keys_nodup _ _ _ hs
      | some existing =>
        simp only [hl]
        by_cases hc : existing.cost < r.cost
        · rw [if_pos hc]
          exact insertA_keys_nodup _ _ _ hs
        · rw [if_neg hc]
          exact hs

theorem pass1_allRecords_none (gk : CostRecord → String) (recs : List CostRecord) :
    ∀ r ∈ (recs.foldl (accStep gk) accInit).allRecords, r.requestID = none := by
  apply foldl_invariant (accStep gk)
    (fun s => ∀ r ∈ s.allRecords, r.requestID = none)
  · intro r hr
    simp [accInit] at hr
  · intro s r _ hs r' hr'
    rw [accStep_allRecords] at hr'
    by_cases hcond : r.requestID = none ∧ ¬ (r.uuid ≠ "" ∧ r.uuid ∈ s.seenUUIDs)
    · rw [if_pos hcond] at hr'
      rcases List.mem_append.mp hr' with hh | hh
      · exact hs r' hh
      · rw [List.mem_singleton] at hh
        rw [hh]
        exact hcond.1
    · rw [if_neg hcond] at hr'
      exact hs r' hr'

theorem Metrics_add_zero (a : Metrics) : Metrics.add a Metrics.zero = a := by
  obtain ⟨c, it, ot, crt, cwt, ic, oc, crc, cwc⟩ := a
  simp [Metrics.add, Metrics.zero]

theorem Metrics_zero_add (a : Metrics) : Metrics.add Metrics.zero a = a := by
  obtain ⟨c, it, ot, crt, cwt, ic, oc, crc, cwc⟩ := a
  simp [Metrics.add, Metrics.zero]

theorem Metrics_add_comm (a b : Metrics) : Metrics.add a b = Metrics.add b a := by
  obtain ⟨c, it, ot, crt, cwt, ic, oc, crc, cwc⟩ := a
  obtain ⟨c2, it2, ot2, crt2, cwt2, ic2, oc2, crc2, cwc2⟩ := b
  simp only [Metrics.add, Metrics.mk.injEq]
  exact ⟨by ring, by ring, by ring, by ring, by ring, by ring, by ring, by ring, by ring⟩

theorem Metrics_add_assoc (a b c : Metrics) :
    Metrics.add (Metrics.add a b) c = Metrics.add a (Metrics.add b c) := by
  obtain ⟨c1, it, ot, crt, cwt, ic, oc, crc, cwc⟩ := a
  obtain ⟨c2, it2, ot2, crt2, cwt2, ic2, oc2, crc2, cwc2⟩ := b
  obtain ⟨c3, it3, ot3, crt3, cwt3, ic3, oc3, crc3, cwc3⟩ := c
  simp only [Metrics.add, Metrics.mk.injEq]
  exact ⟨by ring, by ring, by ring, by ring, by ring, by ring, by ring, by ring, by ring⟩

theorem sumMetrics_concat (l : List Metrics) (m : Metrics) :
    sumMetrics (l ++ [m]) = Metrics.add (sumMetrics l) m := by
  simp [sumMetrics]

theorem groupTotal_nil (gk : CostRecord → String) (g : String) :
    groupTotal gk g [] = Metrics.zero := rfl

theorem groupTotal_concat (gk : CostRecord → String) (g : String) (l : List CostRecord)
    (r : CostRecord) :
    groupTotal gk g (l ++ [r]) =
      if gk r = g then Metrics.add (groupTotal gk g l) (recordMetrics r)
      else groupTotal gk g l := by
  unfold groupTotal
  rw [List.filter_append]
  by_cases h : gk r = g
  · have hf : List.filter (fun r => decide (gk r = g)) [r] = [r] := by simp [h]
    rw [hf, if_pos h, List.map_append, List.map_singleton, sumMetrics_concat]
  · have hf : List.filter (fun r => decide (gk r = g)) [r] = [] := by simp [h]
    rw [hf, if_neg h, List.append_nil]

theorem lookupA_foldIntoGroup (gk : CostRecord → String) (mbg : List (String × Metrics))
    (r : CostRecord) (g : String) :
    (lookupA (foldIntoGroup gk mbg r) g).getD Metrics.zero =
      if gk r = g then
        Metrics.add ((lookupA mbg g).getD Metrics.zero) (recordMetrics r)
      else (lookupA mbg g).getD Metrics.zero := by
  unfold foldIntoGroup
  by_cases h : gk r = g
  · rw [if_pos h, h, lookupA_insertA_self]
    rfl
  · rw [if_neg h, lookupA_insertA_ne _ _ _ _ (fun hh => h hh.symm)]

theorem metricsInv_fold (gk : CostRecord → String) (s : AccState) (r : CostRecord)
    (h : MetricsInv gk s) :
    ∀ g, (lookupA (foldIntoGroup gk s.metricsByGroup r) g).getD Metrics.zero =
      groupTotal gk g (s.allRecords ++ [r]) := by
  intro g
  rw [lookupA_foldIntoGroup, groupTotal_concat, h g]

theorem pass1_metricsInv (gk : CostRecord → String) (recs : List CostRecord) :
    MetricsInv gk (recs.foldl (accStep gk) accInit) := by
  apply foldl_invariant (accStep gk) (MetricsInv gk)
  · intro g
    simp [accInit, lookupA, groupTotal, sumMetrics]
  · intro s r _ hs g
    rw [accStep_metricsByGroup, accStep_allRecords]
    by_cases hcond : r.requestID = none ∧ ¬ (r.uuid ≠ "" ∧ r.uuid ∈ s.seenUUIDs)
    · rw [if_pos hcond, if_pos hcond]
      exact metricsInv_fold gk s r hs g
    · rw [if_neg hcond, if_neg hcond]
      exact hs g

theorem finishFold_spec (gk : CostRecord → String) (m : List (String × CostRecord)) :
    ∀ st : AccState,
      m.foldl (fun st p =>
        { st with
          metricsByGroup := foldIntoGroup gk st.metricsByGroup p.2
          allRecords := st.allRecords ++ [p.2] }) st =
      { st with
        metricsByGroup := (m.map Prod.snd).foldl (foldIntoGroup gk) st.metricsByGroup
        allRecords := st.allRecords ++ m.map Prod.snd } := by
  induction m with
  | nil =>
    intro st
    simp
  | cons p rest ih =>
    intro st
    rw [List.foldl_cons, ih]
    simp [List.append_assoc]

theorem metricsInv_fold_list (gk : CostRecord → String) (extra : List CostRecord) :
    ∀ (mbg : List (String × Metrics)) (all : List CostRecord),
      (∀ g, (lookupA mbg g).getD Metrics.zero = groupTotal gk g all) →
      ∀ g, (lookupA (extra.foldl (foldIntoGroup gk) mbg) g).getD Metrics.zero =
        groupTotal gk g (all ++ extra) := by
  induction extra with
  | nil =>
    intro mbg all h g
    simpa using h g
  | cons r rest ih =>
    intro mbg all h g
    rw [List.foldl_cons]
    have hstep : ∀ g2, (lookupA (foldIntoGroup gk mbg r) g2).getD Metrics.zero =
        groupTotal gk g2 (all ++ [r]) := by
      intro g2
      rw [lookupA_foldIntoGroup, groupTotal_concat, h g2]
    have := ih (foldIntoGroup gk mbg r) (all ++ [r]) hstep g
    rwa [List.append_assoc, List.singleton_append] at this

theorem map_values_filter (rid : String) :
    ∀ (m : List (String × CostRecord)),
      (∀ p ∈ m, p.2.requestID = some p.1) →
      ((m.map Prod.fst).Nodup) →
      (m.map Prod.snd).filter (fun r => r.requestID = some rid) = (lookupA m rid).toList := by
  intro m
  induction m with
  | nil => intro _ _; rfl
  | cons p rest ih =>
    intro hv hnd
    obtain ⟨k, v⟩ := p
    have hvk : v.requestID = some k := hv (k, v) (List.mem_cons_self _ _)
    have hvrest : ∀ q ∈ rest, q.2.requestID = some q.1 :=
      fun q hq => hv q (List.mem_cons_of_mem _ hq)
    simp only [List.map_cons, List.nodup_cons] at hnd
    rw [List.map_cons, lookupA_cons]
    by_cases hk : k = rid
    · subst hk
      have hrest : (rest.map Prod.snd).filter (fun r => r.requestID = some k) = [] := by
        rw [List.filter_eq_nil_iff]
        intro a ha
        obtain ⟨q, hq, hqa⟩ := List.mem_map.mp ha
        have hq2 := hvrest q hq
        simp only [decide_eq_true_eq]
        intro hcontra
        rw [← hqa, hq2] at hcontra
        injection hcontra with hcontra
        exact hnd.1 (hcontra ▸ List.mem_map_of_mem Prod.fst hq)
      rw [List.filter_cons_of_pos (by simp [hvk]), hrest, if_pos rfl]
      rfl
    · have hneg : ¬ (decide (v.requestID = some rid) = true) := by
        simp only [decide_eq_true_eq]
        rw [hvk]
        intro hcon
        injection hcon with hcon
        exact hk hcon
      rw [if_neg hk]
      show List.filter (fun r => decide (r.requestID = some rid)) (v :: List.map Prod.snd rest) =
        (lookupA rest rid).toList
      rw [List.filter_cons]
      simp only [hneg, if_false]
      exact ih hvrest hnd.2

/-- Claim C1: for every requestID observed in the stream, the accumulator
retains and folds exactly one record for it: the first record attaining the
maximum cost among all records carrying that requestID (`List.argmax` keeps
the earliest element on ties, exactly like the `record.Cost > existing.Cost`
replacement rule); and `metricsByGroup` is precisely the pointwise sum of the
contributions of the retained records, so that single record is the
requestID's one and only contribution to the metrics. -/
theorem claim_C1 (gk : CostRecord → String) (recs : List CostRecord) (rid : String) :
    ((runAccumulator gk recs).allRecords.filter (fun r => r.requestID = some rid)) =
      ((recs.filter (fun r => r.requestID = some rid)).argmax (fun r => r.cost)).toList ∧
    (recs.filter (fun r => r.requestID = some rid) ≠ [] →
      ((recs.filter (fun r => r.requestID = some rid)).argmax (fun r => r.cost)).isSome = true) ∧
    (∀ m, ((recs.filter (fun r => r.requestID = some rid)).argmax (fun r => r.cost)) = some m →
      m ∈ recs.filter (fun r => r.requestID = some rid) ∧
      (∀ x ∈ recs.filter (fun r => r.requestID = some rid), x.cost ≤ m.cost) ∧
      (∀ x ∈ recs.filter (fun r => r.requestID = some rid), m.cost ≤ x.cost →
        (recs.filter (fun r => r.requestID = some rid)).indexOf m ≤
          (recs.filter (fun r => r.requestID = some rid)).indexOf x)) ∧
    (∀ g, (lookupA (runAccumulator gk recs).metricsByGroup g).getD Metrics.zero =
      groupTotal gk g ((runAccumulator gk recs).allRecords)) := by
  have hrun : runAccumulator gk recs =
      { recs.foldl (accStep gk) accInit with
        metricsByGroup :=
          (((recs.foldl (accStep gk) accInit).maxCostByRequestID).map Prod.snd).foldl
            (foldIntoGroup gk) (recs.foldl (accStep gk) accInit).metricsByGroup
        allRecords := (recs.foldl (accStep gk) accInit).allRecords ++
          ((recs.foldl (accStep gk) accInit).maxCostByRequestID).map Prod.snd } := by
    rw [runAccumulator, accFinish, finishFold_spec]
  refine ⟨?_, ?_, ?_, ?_⟩
  · rw [hrun]
    show ((recs.foldl (accStep gk) accInit).allRecords ++
        ((recs.foldl (accStep gk) accInit).maxCostByRequestID).map Prod.snd).filter
        (fun r => r.requestID = some rid) = _
    rw [List.filter_append]
    have h1 : ((recs.foldl (accStep gk) accInit).allRecords).filter
        (fun r => r.requestID = some rid) = [] := by
      rw [List.filter_eq_nil_iff]
      intro a ha
      have := pass1_allRecords_none gk recs a ha
      simp [this]
    rw [h1, List.nil_append,
      map_values_filter rid _ (pass1_max_values gk recs) (pass1_max_nodup gk recs),
      pass1_max_lookup]
  · intro hne
    rw [Option.isSome_iff_ne_none]
    intro hcon
    exact hne (List.argmax_eq_none.mp hcon)
  · intro m hm
    have hmem : m ∈ (recs.filter (fun r => r.requestID = some rid)).argmax
        (fun r => r.cost) := hm
    refine ⟨List.argmax_mem hmem, ?_, ?_⟩
    · intro x hx
      exact List.le_of_mem_argmax hx hmem
    · intro x hx hle
      exact List.index_of_argmax hmem hx hle
  · intro g
    rw [hrun]
    show (lookupA ((((recs.foldl (accStep gk) accInit).maxCostByRequestID).map Prod.snd).foldl
        (foldIntoGroup gk) (recs.foldl (accStep gk) accInit).metricsByGroup) g).getD
        Metrics.zero = groupTotal gk g ((recs.foldl (accStep gk) accInit).allRecords ++
        ((recs.foldl (accStep gk) accInit).maxCostByRequestID).map Prod.snd)
    exact metricsInv_fold_list gk _ _ _ (pass1_metricsInv gk recs) g

theorem take_one_append {α : Type} (xs ys : List α) (h : xs ≠ []) :
    (xs ++ ys).take 1 = xs.take 1 := by
  cases xs with
  | nil => exact absurd rfl h
  | cons a as => simp

theorem pass1_uuid_first (gk : CostRecord → String) (u : String) (hu : u ≠ "")
    (recs : List CostRecord) :
    ((recs.foldl (accStep gk) accInit).allRecords.filter
        (fun r => r.requestID = none ∧ r.uuid = u) =
      (recs.filter (fun r => r.requestID = none ∧ r.uuid = u)).take 1) ∧
    (u ∈ (recs.foldl (accStep gk) accInit).seenUUIDs ↔
      recs.filter (fun r => r.requestID = none ∧ r.uuid = u) ≠ []) := by
  induction recs using List.reverseRecOn with
  | nil => simp [accInit]
  | append_singleton l r ih =>
    obtain ⟨ih1, ih2⟩ := ih
    rw [List.foldl_append, List.foldl_cons, List.foldl_nil]
    by_cases hQ : r.requestID = none ∧ r.uuid = u
    · have hfr : List.filter (fun r => decide (r.requestID = none ∧ r.uuid = u)) [r] = [r] := by
        simp [hQ.1, hQ.2]
      by_cases hseen : u ∈ (l.foldl (accStep gk) accInit).seenUUIDs
      · have hFLne : l.filter (fun r => decide (r.requestID = none ∧ r.uuid = u)) ≠ [] :=
          ih2.mp hseen
        have hcond : ¬ (r.requestID = none ∧
            ¬ (r.uuid ≠ "" ∧ r.uuid ∈ (l.foldl (accStep gk) accInit).seenUUIDs)) := by
          rintro ⟨-, hnot⟩
          exact hnot ⟨by rw [hQ.2]; exact hu, by rw [hQ.2]; exact hseen⟩
        constructor
        · rw [accStep_allRecords, if_neg hcond, List.filter_append, hfr,
            take_one_append _ _ hFLne]
          exact ih1
        · rw [accStep_seenUUIDs, if_neg (fun h => h.2.2 (hQ.2 ▸ hseen))]
          constructor
          · intro _
            rw [List.filter_append, hfr]
            exact fun hcon => List.cons_ne_nil r [] (List.append_eq_nil.mp hcon).2
          · intro _
            exact hseen
      · have hFL : l.filter (fun r => decide (r.requestID = none ∧ r.uuid = u)) = [] := by
          by_contra hC
          exact hseen (ih2.mpr hC)
        have hcond : r.requestID = none ∧
            ¬ (r.uuid ≠ "" ∧ r.uuid ∈ (l.foldl (accStep gk) accInit).seenUUIDs) := by
          refine ⟨hQ.1, ?_⟩
          rintro ⟨-, hmem⟩
          exact hseen (hQ.2 ▸ hmem)
        constructor
        · rw [accStep_allRecords, if_pos hcond, List.filter_append, List.filter_append, hfr,
            ih1, hFL]
          simp
        · rw [accStep_seenUUIDs,
            if_pos ⟨hQ.1, by rw [hQ.2]; exact hu, by rw [hQ.2]; exact hseen⟩]
          constructor
          · intro _
            rw [List.filter_append, hfr]
            exact fun hcon => List.cons_ne_nil r [] (List.append_eq_nil.mp hcon).2
          · intro _
            rw [mem_insertS]
            exact Or.inl hQ.2.symm
    · have hfr : List.filter (fun r => decide (r.requestID = none ∧ r.uuid = u)) [r] = [] := by
        simp only [List.filter_cons, List.filter_nil]
        rw [if_neg (by simpa using hQ)]
      constructor
      · rw [accStep_allRecords, List.filter_append, hfr, List.append_nil]
        split
        · rw [List.filter_append, hfr, List.append_nil]
          exact ih1
        · exact ih1
      · rw [accStep_seenUUIDs, List.filter_append, hfr, List.append_nil]
        split
        · rename_i hcond
          have hru : r.uuid ≠ u := by
            intro hcontra
            exact hQ ⟨hcond.1, hcontra⟩
          rw [mem_insertS]
          constructor
          · rintro (hh | hh)
            · exact absurd hh.symm hru
            · exact ih2.mp hh
          · intro hh
            exact Or.inr (ih2.mpr hh)
        · exact ih2

theorem mem_updSeen (seen : List String) (r : CostRecord) (z : String) :
    z ∈ updSeen seen r ↔ (r.uuid ≠ "" ∧ z = r.uuid) ∨ z ∈ seen := by
  unfold updSeen
  by_cases h : r.uuid = ""
  · simp [h]
  · simp [h, mem_insertS]

theorem dedupFirstAux_congr (recs : List CostRecord) :
    ∀ seen1 seen2, (∀ x, x ∈ seen1 ↔ x ∈ seen2) →
      dedupFirstAux seen1 recs = dedupFirstAux seen2 recs := by
  induction recs with
  | nil => intro _ _ _; rfl
  | cons r rest ih =>
    intro s1 s2 h
    by_cases hc : r.uuid ≠ "" ∧ r.uuid ∈ s1
    · have hc2 : r.uuid ≠ "" ∧ r.uuid ∈ s2 := ⟨hc.1, (h _).mp hc.2⟩
      simp only [dedupFirstAux, if_pos hc, if_pos hc2]
      exact ih s1 s2 h
    · have hc2 : ¬ (r.uuid ≠ "" ∧ r.uuid ∈ s2) := fun hh => hc ⟨hh.1, (h _).mpr hh.2⟩
      simp only [dedupFirstAux, if_neg hc, if_neg hc2]
      congr 1
      apply ih
      intro x
      rw [mem_updSeen, mem_updSeen, h x]

theorem pass1_dedup (gk : CostRecord → String) (recs : List CostRecord) :
    ∀ s : AccState, (∀ r ∈ recs, r.requestID = none) →
      (recs.foldl (accStep gk) s).allRecords =
        s.allRecords ++ dedupFirstAux s.seenUUIDs recs := by
  induction recs with
  | nil =>
    intro s _
    simp [dedupFirstAux]
  | cons r rest ih =>
    intro s hall
    have hrnone : r.requestID = none := hall r (List.mem_cons_self _ _)
    have hallrest : ∀ x ∈ rest, x.requestID = none :=
      fun x hx => hall x (List.mem_cons_of_mem _ hx)
    rw [List.foldl_cons]
    by_cases hc : r.uuid ≠ "" ∧ r.uuid ∈ s.seenUUIDs
    · have ha : (accStep gk s r).allRecords = s.allRecords := by
        rw [accStep_allRecords, if_neg (fun hh => hh.2 hc)]
      have hseen : (accStep gk s r).seenUUIDs = s.seenUUIDs := by
        rw [accStep_seenUUIDs, if_neg (fun hh => hh.2.2 hc.2)]
      rw [ih _ hallrest, ha, hseen]
      simp only [dedupFirstAux, if_pos hc]
    · have ha : (accStep gk s r).allRecords = s.allRecords ++ [r] := by
        rw [accStep_allRecords, if_pos ⟨hrnone, hc⟩]
      have hseen : (accStep gk s r).seenUUIDs = updSeen s.seenUUIDs r := by
        rw [accStep_seenUUIDs]
        by_cases hru : r.uuid = ""
        · rw [if_neg (fun hh => hh.2.1 hru)]
          unfold updSeen
          rw [if_neg (fun hh => hh hru)]
        · have hnm : r.uuid ∉ s.seenUUIDs := fun hm => hc ⟨hru, hm⟩
          rw [if_pos ⟨hrnone, hru, hnm⟩]
          unfold updSeen
          rw [if_pos hru]
      rw [ih _ hallrest, ha, hseen]
      simp only [dedupFirstAux, if_neg hc]
      rw [List.append_assoc, List.singleton_append]

theorem pass1_maxMap_nil (gk : CostRecord → String) (recs : List CostRecord)
    (hall : ∀ r ∈ recs, r.requestID = none) :
    (recs.foldl (accStep gk) accInit).maxCostByRequestID = [] := by
  apply foldl_invariant (accStep gk) (fun s => s.maxCostByRequestID = [])
  · rfl
  · intro s a ha hs
    simp only [accStep_maxMap, hall a ha]
    exact hs

theorem dedup_map_proj_perm (gk : CostRecord → String) {l1 l2 : List CostRecord}
    (hperm : l1.Perm l2) :
    (∀ r ∈ l1, ∀ r2 ∈ l1, r.uuid = r2.uuid → r.uuid ≠ "" →
      gk r = gk r2 ∧ recordMetrics r = recordMetrics r2) →
    ∀ seen, ((dedupFirstAux seen l1).map (fun r => (gk r, recordMetrics r))).Perm
      ((dedupFirstAux seen l2).map (fun r => (gk r, recordMetrics r))) := by
  induction hperm with
  | nil =>
    intro _ seen
    exact List.Perm.refl _
  | cons x hp ih =>
    intro hcompat seen
    have hcompat2 := fun r hr r2 hr2 =>
      hcompat r (List.mem_cons_of_mem x hr) r2 (List.mem_cons_of_mem x hr2)
    by_cases hc : x.uuid ≠ "" ∧ x.uuid ∈ seen
    · simp only [dedupFirstAux, if_pos hc]
      exact ih hcompat2 seen
    · simp only [dedupFirstAux, if_neg hc, List.map_cons]
      exact List.Perm.cons _ (ih hcompat2 _)
  | swap x y l =>
    intro hcompat seen
    by_cases hy : y.uuid ≠ "" ∧ y.uuid ∈ seen
    · by_cases hx : x.uuid ≠ "" ∧ x.uuid ∈ seen
      · have e1 : dedupFirstAux seen (y :: x :: l) = dedupFirstAux seen l := by
          simp only [dedupFirstAux, if_pos hy, if_pos hx]
        have e2 : dedupFirstAux seen (x :: y :: l) = dedupFirstAux seen l := by
          simp only [dedupFirstAux, if_pos hx, if_pos hy]
        rw [e1, e2]
      · have hyupd : y.uuid ≠ "" ∧ y.uuid ∈ updSeen seen x :=
          ⟨hy.1, (mem_updSeen _ _ _).mpr (Or.inr hy.2)⟩
        have e1 : dedupFirstAux seen (y :: x :: l) =
            x :: dedupFirstAux (updSeen seen x) l := by
          simp only [dedupFirstAux, if_pos hy, if_neg hx]
        have e2 : dedupFirstAux seen (x :: y :: l) =
            x :: dedupFirstAux (updSeen seen x) l := by
          simp only [dedupFirstAux, if_neg hx, if_pos hyupd]
        rw [e1, e2]
    · by_cases hx : x.uuid ≠ "" ∧ x.uuid ∈ seen
      · have hxupd : x.uuid ≠ "" ∧ x.uuid ∈ updSeen seen y :=
          ⟨hx.1, (mem_updSeen _ _ _).mpr (Or.inr hx.2)⟩
        have e1 : dedupFirstAux seen (y :: x :: l) =
            y :: dedupFirstAux (updSeen seen y) l := by
          simp only [dedupFirstAux, if_neg hy, if_pos hxupd]
        have e2 : dedupFirstAux seen (x :: y :: l) =
            y :: dedupFirstAux (updSeen seen y) l := by
          simp only [dedupFirstAux, if_pos hx, if_neg hy]
        rw [e1, e2]
      · by_cases hsame : x.uuid = y.uuid ∧ x.uuid ≠ ""
        · have hyne : y.uuid ≠ "" := by
            rw [← hsame.1]
            exact hsame.2
          have e1 : dedupFirstAux seen (y :: x :: l) =
              y :: dedupFirstAux (updSeen seen y) l := by
            simp only [dedupFirstAux, if_neg hy,
              if_pos (⟨hsame.2, (mem_updSeen _ _ _).mpr (Or.inl ⟨hyne, hsame.1⟩)⟩ :
                x.uuid ≠ "" ∧ x.uuid ∈ updSeen seen y)]
          have e2 : dedupFirstAux seen (x :: y :: l) =
              x :: dedupFirstAux (updSeen seen x) l := by
            simp only [dedupFirstAux, if_neg hx,
              if_pos (⟨hyne, (mem_updSeen _ _ _).mpr (Or.inl ⟨hsame.2, hsame.1.symm⟩)⟩ :
                y.uuid ≠ "" ∧ y.uuid ∈ updSeen seen x)]
          have hupd : updSeen seen x = updSeen seen y := by
            unfold updSeen
            rw [hsame.1]
          have hproj : gk x = gk y ∧ recordMetrics x = recordMetrics y :=
            hcompat x (by simp) y (by simp) hsame.1 hsame.2
          rw [e1, e2, hupd, List.map_cons, List.map_cons, hproj.1, hproj.2]
        · have hxkeep : ¬ (x.uuid ≠ "" ∧ x.uuid ∈ updSeen seen y) := by
            rintro ⟨hxne, hxmem⟩
            rcases (mem_updSeen _ _ _).mp hxmem with ⟨hyne, hxy⟩ | hxseen
            · exact hsame ⟨hxy, hxne⟩
            · exact hx ⟨hxne, hxseen⟩
          have hykeep : ¬ (y.uuid ≠ "" ∧ y.uuid ∈ updSeen seen x) := by
            rintro ⟨hyne, hymem⟩
            rcases (mem_updSeen _ _ _).mp hymem with ⟨hxne, hyx⟩ | hyseen
            · exact hsame ⟨hyx.symm, hxne⟩
            · exact hy ⟨hyne, hyseen⟩
          have e1 : dedupFirstAux seen (y :: x :: l) =
              y :: x :: dedupFirstAux (updSeen (updSeen seen y) x) l := by
            simp only [dedupFirstAux, if_neg hy, if_neg hxkeep]
          have e2 : dedupFirstAux seen (x :: y :: l) =
              x :: y :: dedupFirstAux (updSeen (updSeen seen x) y) l := by
            simp only [dedupFirstAux, if_neg hx, if_neg hykeep]
          have hseq : dedupFirstAux (updSeen (updSeen seen y) x) l =
              dedupFirstAux (updSeen (updSeen seen x) y) l := by
            apply dedupFirstAux_congr
            intro z
            rw [mem_updSeen, mem_updSeen, mem_updSeen, mem_updSeen]
            tauto
          rw [e1, e2, hseq, List.map_cons, List.map_cons, List.map_cons, List.map_cons]
          exact List.Perm.swap _ _ _
  | trans hp12 hp23 ih12 ih23 =>
    intro hcompat seen
    have hcompat2 := fun r hr r2 hr2 =>
      hcompat r (hp12.mem_iff.mpr hr) r2 (hp12.mem_iff.mpr hr2)
    exact (ih12 hcompat seen).trans (ih23 hcompat2 seen)

theorem filter_map_proj (gk : CostRecord → String) (g : String) (l : List CostRecord) :
    (l.filter (fun r => gk r = g)).map recordMetrics =
      ((l.map (fun r => (gk r, recordMetrics r))).filter (fun p => p.1 = g)).map Prod.snd := by
  induction l with
  | nil => rfl
  | cons r rest ih =>
    simp only [List.map_cons, List.filter_cons]
    by_cases h : gk r = g
    · simp [h, ih]
    · simp [h, ih]

theorem sumMetrics_perm {l1 l2 : List Metrics} (h : l1.Perm l2) :
    sumMetrics l1 = sumMetrics l2 :=
  h.foldl_eq'
    (fun x _ y _ z => by rw [Metrics_add_assoc, Metrics_add_assoc, Metrics_add_comm x y])
    Metrics.zero

theorem runAccumulator_of_none (gk : CostRecord → String) (recs : List CostRecord)
    (hall : ∀ r ∈ recs, r.requestID = none) :
    (runAccumulator gk recs).allRecords = dedupFirstAux [] recs ∧
    ∀ g, (lookupA (runAccumulator gk recs).metricsByGroup g).getD Metrics.zero =
      groupTotal gk g (dedupFirstAux [] recs) := by
  have hmax := pass1_maxMap_nil gk recs hall
  have hdedup : (recs.foldl (accStep gk) accInit).allRecords = dedupFirstAux [] recs := by
    have hd := pass1_dedup gk recs accInit hall
    simpa [accInit] using hd
  have hrun : runAccumulator gk recs =
      { recs.foldl (accStep gk) accInit with
        metricsByGroup :=
          (((recs.foldl (accStep gk) accInit).maxCostByRequestID).map Prod.snd).foldl
            (foldIntoGroup gk) (recs.foldl (accStep gk) accInit).metricsByGroup
        allRecords := (recs.foldl (accStep gk) accInit).allRecords ++
          ((recs.foldl (accStep gk) accInit).maxCostByRequestID).map Prod.snd } := by
    rw [runAccumulator, accFinish, finishFold_spec]
  rw [hrun, hmax]
  constructor
  · show (recs.foldl (accStep gk) accInit).allRecords ++ ([] : List (String × CostRecord)).map Prod.snd = _
    rw [List.map_nil, List.append_nil, hdedup]
  · intro g
    show (lookupA ((([] : List (String × CostRecord)).map Prod.snd).foldl (foldIntoGroup gk)
      (recs.foldl (accStep gk) accInit).metricsByGroup) g).getD Metrics.zero = _
    rw [List.map_nil, List.foldl_nil, pass1_metricsInv gk recs g, hdedup]

/-- Claim C5: among records without a requestID sharing the same non-empty
uuid, only the first-encountered record is retained and folded (the later
duplicates are dropped entirely); and for any permutation of the arrival
order, provided records sharing a dedup uuid carry the same group key and
metric contribution (they are duplicates of the same event), every group's
folded total is identical: order only decides which duplicate instance counts
as first. -/
theorem claim_C5 (gk : CostRecord → String) (recs recs' : List CostRecord) (u : String)
    (hu : u ≠ "")
    (hall : ∀ r ∈ recs, r.requestID = none)
    (hperm : recs.Perm recs')
    (hcompat : ∀ r ∈ recs, ∀ r2 ∈ recs, r.uuid = r2.uuid → r.uuid ≠ "" →
      gk r = gk r2 ∧ recordMetrics r = recordMetrics r2) :
    ((runAccumulator gk recs).allRecords.filter
        (fun r => r.requestID = none ∧ r.uuid = u) =
      (recs.filter (fun r => r.requestID = none ∧ r.uuid = u)).take 1) ∧
    (∀ g, (lookupA (runAccumulator gk recs).metricsByGroup g).getD Metrics.zero =
      (lookupA (runAccumulator gk recs').metricsByGroup g).getD Metrics.zero) := by
  have hall2 : ∀ r ∈ recs', r.requestID = none := fun r hr => hall r (hperm.mem_iff.mpr hr)
  obtain ⟨ha1, hm1⟩ := runAccumulator_of_none gk recs hall
  obtain ⟨ha2, hm2⟩ := runAccumulator_of_none gk recs' hall2
  constructor
  · have hd := pass1_dedup gk recs accInit hall
    have hfirst := (pass1_uuid_first gk u hu recs).1
    rw [ha1]
    have hdedup : dedupFirstAux [] recs = (recs.foldl (accStep gk) accInit).allRecords := by
      simpa [accInit] using hd.symm
    rw [hdedup]
    exact hfirst
  · intro g
    rw [hm1 g, hm2 g]
    unfold groupTotal
    rw [filter_map_proj gk g, filter_map_proj gk g]
    exact sumMetrics_perm
      (((dedup_map_proj_perm gk hperm hcompat []).filter _).map _)

/-- Claim C1, witness: the spec scenario of two records sharing requestID
`r1` with costs 1 and 5/2 — exactly one record, the one of cost 5/2, is
retained and folded, in either arrival order. -/
theorem claim_C1_witness :
    (runAccumulator (fun r => r.timestamp) [wRecA, wRecB]).allRecords.filter
      (fun r => r.requestID = some "r1") = [wRecB] ∧
    (runAccumulator (fun r => r.timestamp) [wRecB, wRecA]).allRecords.filter
      (fun r => r.requestID = some "r1") = [wRecB] := by
  constructor
  · exact ((claim_C1 (fun r => r.timestamp) [wRecA, wRecB] "r1").1).trans (by decide)
  · exact ((claim_C1 (fun r => r.timestamp) [wRecB, wRecA] "r1").1).trans (by decide)

/-- Claim C5, witness: a record and its history-sourced duplicate (same uuid
`u1`): only the first instance is retained, and the folded metrics of the
day group agree for both arrival orders. -/
theorem claim_C5_witness :
    (runAccumulator (fun r => r.timestamp) [wRecC, wRecD]).allRecords.filter
      (fun r => r.requestID = none ∧ r.uuid = "u1") = [wRecC] ∧
    (lookupA (runAccumulator (fun r => r.timestamp) [wRecC, wRecD]).metricsByGroup
      "2024-01-05").getD Metrics.zero =
    (lookupA (runAccumulator (fun r => r.timestamp) [wRecD, wRecC]).metricsByGroup
      "2024-01-05").getD Metrics.zero := by
  have h := claim_C5 (fun r => r.timestamp) [wRecC, wRecD] [wRecD, wRecC] "u1"
    (by decide) (by decide) (by decide) (by decide)
  exact ⟨h.1.trans (by decide), h.2 "2024-01-05"⟩

/-- Claim C8: the Metrics aggregate forms a commutative monoid under its
pointwise-addition merge: the zero-valued Metrics is a two-sided identity and
the merge is commutative and associative for all values. -/
theorem claim_C8 (a b c : Metrics) :
    Metrics.add a Metrics.zero = a ∧
    Metrics.add Metrics.zero a = a ∧
    Metrics.add a b = Metrics.add b a ∧
    Metrics.add (Metrics.add a b) c = Metrics.add a (Metrics.add b c) :=
  ⟨Metrics_add_zero a, Metrics_zero_add a, Metrics_add_comm a b, Metrics_add_assoc a b c⟩

theorem pass1_empty_uuid (gk : CostRecord → String) (recs : List CostRecord) :
    (recs.foldl (accStep gk) accInit).allRecords.filter
        (fun r => r.requestID = none ∧ r.uuid = "") =
      recs.filter (fun r => r.requestID = none ∧ r.uuid = "") := by
  induction recs using List.reverseRecOn with
  | nil => simp [accInit]
  | append_singleton l r ih =>
    rw [List.foldl_append, List.foldl_cons, List.foldl_nil, accStep_allRecords,
      List.filter_append]
    by_cases hQ : r.requestID = none ∧ r.uuid = ""
    · have hfr : List.filter (fun r => decide (r.requestID = none ∧ r.uuid = "")) [r] =
          [r] := by
        simp [hQ.1, hQ.2]
      have hcond : r.requestID = none ∧ ¬ (r.uuid ≠ "" ∧ r.uuid ∈
          (l.foldl (accStep gk) accInit).seenUUIDs) := by
        refine ⟨hQ.1, ?_⟩
        rintro ⟨hne, -⟩
        exact hne hQ.2
      rw [if_pos hcond, List.filter_append, hfr, ih]
    · have hfr : List.filter (fun r => decide (r.requestID = none ∧ r.uuid = "")) [r] =
          [] := by
        simp only [List.filter_cons, List.filter_nil]
        rw [if_neg (by simpa using hQ)]
      rw [hfr, List.append_nil]
      split
      · rw [List.filter_append, hfr, List.append_nil]
        exact ih
      · exact ih

/-- Claim C7: for a non-empty batch, `AppendRawLines` produces the file
whether or not it existed, the previous bytes stay unchanged as the head of
the new content, and the appended tail is exactly each line of the batch
followed by a newline, in batch order; an empty batch leaves even an absent
file absent. -/
theorem claim_C7 (content : Option (List Char)) (lines : List (List Char))
    (h : lines ≠ []) :
    AppendRawLines content lines = some (content.getD [] ++ encodeLines lines) ∧
    ((AppendRawLines content lines).getD []).take (content.getD []).length =
      content.getD [] ∧
    (∀ l ls, encodeLines (l :: ls) = l ++ '\n' :: encodeLines ls) ∧
    AppendRawLines content [] = content := by
  have he : AppendRawLines content lines = some (content.getD [] ++ encodeLines lines) := by
    rw [AppendRawLines, if_neg h]
  refine ⟨he, ?_, ?_, ?_⟩
  · rw [he]
    exact List.take_left _ _
  · intro l ls
    simp [encodeLines]
  · rfl

/-- Claim C7, witness: appending two lines to a one-byte file. -/
theorem claim_C7_witness :
    AppendRawLines (some ['a']) [['b'], ['c']] =
      some ['a', 'b', '\n', 'c', '\n'] ∧
    ((AppendRawLines (some ['a']) [['b'], ['c']]).getD []).take 1 = ['a'] := by
  have h := claim_C7 (some ['a']) [['b'], ['c']] (by decide)
  exact ⟨h.1.trans (by decide), h.2.1.trans (by decide)⟩

theorem stripCR_no_cr (l : List Char) (h : '\r' ∉ l) : stripCR l = l := by
  unfold stripCR
  cases hl : l.getLast? with
  | none => simp
  | some c =>
    have hc : c ∈ l := List.mem_of_getLast?_eq_some hl
    have hcr : ¬ (some c = some ('\r' : Char)) := by
      intro hcon
      injection hcon with hcon
      exact h (hcon ▸ hc)
    rw [if_neg hcr]

theorem getLast?_ne_nl (part : List Char) (h : '\n' ∉ part) :
    ¬ (part.getLast? = some '\n') := by
  intro hcon
  exact h (List.mem_of_getLast?_eq_some hcon)

/-- Claim C6: `LoadUUIDs` has set semantics and is crash-tolerant. Appending
the same raw line twice (via `AppendRawLines` on a fresh file) still yields a
set containing that uuid exactly once — the physical duplicate is suppressed
at load time, not at write time; and a file holding two complete lines
followed by a truncated partial line (which the decoder rejects) yields
exactly the two complete uuids, the corrupted tail being skipped rather than
an error. -/
theorem claim_C6 (dec : List Char → Option String)
    (l : List Char) (u : String)
    (hdec : dec l = some u) (hu : u ≠ "") (hlne : l ≠ [])
    (hnl : '\n' ∉ l) (hcr : '\r' ∉ l)
    (l1 l2 part : List Char) (u1 u2 : String)
    (hdec1 : dec l1 = some u1) (hdec2 : dec l2 = some u2) (hdecp : dec part = none)
    (hu1 : u1 ≠ "") (hu2 : u2 ≠ "") (hu12 : u1 ≠ u2)
    (h1ne : l1 ≠ []) (h2ne : l2 ≠ []) (hpne : part ≠ [])
    (hnl1 : '\n' ∉ l1) (hnl2 : '\n' ∉ l2) (hnlp : '\n' ∉ part)
    (hcr1 : '\r' ∉ l1) (hcr2 : '\r' ∉ l2) (hcrp : '\r' ∉ part) :
    LoadUUIDs dec (AppendRawLines (AppendRawLines none [l]) [l]) = [u] ∧
    LoadUUIDs dec (some (l1 ++ '\n' :: (l2 ++ '\n' :: part))) = [u1, u2] := by
  constructor
  · have h1 : AppendRawLines none [l] = some (l ++ ['\n']) := by
      simp [AppendRawLines, encodeLines]
    have h2 : AppendRawLines (some (l ++ ['\n'])) [l] =
        some ((l ++ ['\n']) ++ (l ++ ['\n'])) := by
      simp [AppendRawLines, encodeLines]
    rw [h1, h2]
    have hshape : (l ++ ['\n']) ++ (l ++ ['\n']) = l ++ '\n' :: (l ++ '\n' :: []) := by
      simp
    have hcne : (l ++ ['\n']) ++ (l ++ ['\n']) ≠ [] := by
      simp
    have hlast : ((l ++ ['\n']) ++ (l ++ ['\n'])).getLast? = some '\n' := by
      rw [List.getLast?_append_of_ne_nil _ (by simp : l ++ ['\n'] ≠ [])]
      simp
    have hsplit : goSplit '\n' ((l ++ ['\n']) ++ (l ++ ['\n'])) = [l, l, []] := by
      rw [hshape, goSplit_sep_append _ _ _ hnl, goSplit_sep_append _ _ _ hnl]
      rfl
    rw [LoadUUIDs, goScanLines, if_neg hcne, if_pos hlast, hsplit]
    show List.foldl _ [] (([l, l] : List (List Char)).map stripCR) = [u]
    simp [stripCR_no_cr l hcr, hlne, hdec, hu, insertS]
  · have hcne : l1 ++ '\n' :: (l2 ++ '\n' :: part) ≠ [] := by
      simp
    have hshape : l1 ++ '\n' :: (l2 ++ '\n' :: part) =
        (l1 ++ '\n' :: (l2 ++ '\n' :: [])) ++ part := by
      simp
    have hlast : ¬ ((l1 ++ '\n' :: (l2 ++ '\n' :: part)).getLast? = some '\n') := by
      rw [hshape, List.getLast?_append_of_ne_nil _ hpne]
      exact getLast?_ne_nl part hnlp
    have hsplit : goSplit '\n' (l1 ++ '\n' :: (l2 ++ '\n' :: part)) = [l1, l2, part] := by
      rw [goSplit_sep_append _ _ _ hnl1, goSplit_sep_append _ _ _ hnl2,
        goSplit_no_sep _ _ hnlp]
    rw [LoadUUIDs, goScanLines, if_neg hcne, if_neg hlast, hsplit]
    show List.foldl _ [] (([l1, l2, part] : List (List Char)).map stripCR) = [u1, u2]
    simp [stripCR_no_cr l1 hcr1, stripCR_no_cr l2 hcr2, stripCR_no_cr part hcrp,
      h1ne, h2ne, hpne, hdec1, hdec2, hdecp, hu1, hu2, Ne.symm hu12, insertS]

/-- Claim C6, witness: the double-append and crash-truncation scenarios
evaluated on concrete lines. -/
theorem claim_C6_witness :
    LoadUUIDs wDec (AppendRawLines (AppendRawLines none [['p']]) [['p']]) = ["pu"] ∧
    LoadUUIDs wDec (some (['p'] ++ '\n' :: (['q'] ++ '\n' :: ['r']))) = ["pu", "qu"] := by
  have h := claim_C6 wDec ['p'] "pu" (by decide) (by decide) (by decide) (by decide)
    (by decide) ['p'] ['q'] ['r'] "pu" "qu" (by decide) (by decide) (by decide)
    (by decide) (by decide) (by decide) (by decide) (by decide) (by decide)
    (by decide) (by decide) (by decide) (by decide) (by decide) (by decide)
  exact ⟨h.1, h.2⟩

theorem mem_foldl_insertS (us : List String) :
    ∀ (acc : List String) (z : String), z ∈ us.foldl insertS acc ↔ z ∈ acc ∨ z ∈ us := by
  induction us with
  | nil => intro acc z; simp
  | cons u us ih =>
    intro acc z
    rw [List.foldl_cons, ih, mem_insertS]
    simp only [List.mem_cons]
    tauto

theorem mem_effectiveUUIDs (dec : List Char → Option String) (fs : HistFS)
    (loaded : List (List Char)) (files : List (List Char)) :
    ∀ (hU0 : List String) (z : String),
      z ∈ effectiveUUIDs dec fs hU0 loaded files ↔
        z ∈ hU0 ∨ ∃ f, f ∈ files ∧ f ∉ loaded ∧ z ∈ LoadUUIDs dec (fsLookup fs f) := by
  induction files with
  | nil =>
    intro hU0 z
    simp [effectiveUUIDs]
  | cons f files ih =>
    intro hU0 z
    show z ∈ effectiveUUIDs dec fs
      (if f ∈ loaded then hU0 else (LoadUUIDs dec (fsLookup fs f)).foldl insertS hU0)
      loaded files ↔ _
    rw [ih]
    by_cases hl : f ∈ loaded
    · rw [if_pos hl]
      constructor
      · rintro (hz | ⟨f2, hf2, hnl2, hz⟩)
        · exact Or.inl hz
        · exact Or.inr ⟨f2, List.mem_cons_of_mem _ hf2, hnl2, hz⟩
      · rintro (hz | ⟨f2, hf2, hnl2, hz⟩)
        · exact Or.inl hz
        · rcases List.mem_cons.mp hf2 with rfl | hf2
          · exact absurd hl hnl2
          · exact Or.inr ⟨f2, hf2, hnl2, hz⟩
    · rw [if_neg hl, mem_foldl_insertS]
      constructor
      · rintro ((hz | hz) | ⟨f2, hf2, hnl2, hz⟩)
        · exact Or.inl hz
        · exact Or.inr ⟨f, List.mem_cons_self _ _, hl, hz⟩
        · exact Or.inr ⟨f2, List.mem_cons_of_mem _ hf2, hnl2, hz⟩
      · rintro (hz | ⟨f2, hf2, hnl2, hz⟩)
        · exact Or.inl (Or.inl hz)
        · rcases List.mem_cons.mp hf2 with rfl | hf2
          · exact Or.inl (Or.inr hz)
          · exact Or.inr ⟨f2, hf2, hnl2, hz⟩

theorem flatMap_appendGroup (k : List Char) (r : CostRecord) :
    ∀ groups : List (List Char × List CostRecord),
      ((appendGroup groups k r).flatMap (fun g => g.2)).Perm
        (groups.flatMap (fun g => g.2) ++ [r]) := by
  intro groups
  induction groups with
  | nil => simp [appendGroup]
  | cons g rest ih =>
    obtain ⟨k2, rs⟩ := g
    by_cases hk : k2 = k
    · simp only [appendGroup, if_pos hk, List.flatMap_cons]
      rw [List.append_assoc, List.append_assoc]
      exact List.Perm.append_left rs List.perm_append_comm
    · simp only [appendGroup, if_neg hk, List.flatMap_cons]
      rw [List.append_assoc]
      exact List.Perm.append_left rs ih

theorem recordsByDate_step (loc : GoLocation) (hU : List String) (l : List CostRecord)
    (r : CostRecord) :
    recordsByDate loc hU (l ++ [r]) =
      (if r.uuid ≠ "" ∧ r.uuid ∈ hU then recordsByDate loc hU l
       else if r.rawLine = [] then recordsByDate loc hU l
       else appendGroup (recordsByDate loc hU l) (dateKey loc r.fullTimestamp) r) := by
  simp only [recordsByDate, List.foldl_append, List.foldl_cons, List.foldl_nil]

theorem recordsByDate_flat (loc : GoLocation) (hU : List String) (recs : List CostRecord) :
    ((recordsByDate loc hU recs).flatMap (fun g => g.2)).Perm
      (recs.filter (keepRecord hU)) := by
  induction recs using List.reverseRecOn with
  | nil => simp [recordsByDate]
  | append_singleton l r ih =>
    rw [recordsByDate_step, List.filter_append]
    by_cases hc1 : r.uuid ≠ "" ∧ r.uuid ∈ hU
    · have hk : keepRecord hU r = false := by
        simp only [keepRecord, decide_eq_false_iff_not]
        intro hcon
        exact hcon.1 hc1
      rw [if_pos hc1]
      have hfr : List.filter (keepRecord hU) [r] = [] := by simp [hk]
      rw [hfr, List.append_nil]
      exact ih
    · by_cases hc2 : r.rawLine = []
      · have hk : keepRecord hU r = false := by
          simp only [keepRecord, decide_eq_false_iff_not]
          intro hcon
          exact hcon.2 hc2
        rw [if_neg hc1, if_pos hc2]
        have hfr : List.filter (keepRecord hU) [r] = [] := by simp [hk]
        rw [hfr, List.append_nil]
        exact ih
      · have hk : keepRecord hU r = true := by
          simp only [keepRecord, decide_eq_true_eq]
          exact ⟨hc1, hc2⟩
        rw [if_neg hc1, if_neg hc2]
        have hfr : List.filter (keepRecord hU) [r] = [r] := by simp [hk]
        rw [hfr]
        exact (flatMap_appendGroup _ r _).trans (ih.append (List.Perm.refl [r]))

theorem mem_appendGroup (k : List Char) (r : CostRecord)
    (groups : List (List Char × List CostRecord)) :
    ∀ g ∈ appendGroup groups k r,
      g ∈ groups ∨ g = (k, [r]) ∨ ∃ rs, (k, rs) ∈ groups ∧ g = (k, rs ++ [r]) := by
  induction groups with
  | nil =>
    intro g hg
    simp only [appendGroup, List.mem_singleton] at hg
    exact Or.inr (Or.inl hg)
  | cons g0 rest ih =>
    intro g hg
    obtain ⟨k2, rs⟩ := g0
    by_cases hk : k2 = k
    · simp only [appendGroup, if_pos hk, List.mem_cons] at hg
      rcases hg with hg | hg
      · exact Or.inr (Or.inr ⟨rs, by rw [hk]; exact List.mem_cons_self _ _, hg⟩)
      · exact Or.inl (List.mem_cons_of_mem _ hg)
    · simp only [appendGroup, if_neg hk, List.mem_cons] at hg
      rcases hg with hg | hg
      · exact Or.inl (hg ▸ List.mem_cons_self _ _)
      · rcases ih g hg with hh | hh | ⟨rs2, hmem, heq⟩
        · exact Or.inl (List.mem_cons_of_mem _ hh)
        · exact Or.inr (Or.inl hh)
        · exact Or.inr (Or.inr ⟨rs2, List.mem_cons_of_mem _ hmem, heq⟩)

theorem recordsByDate_sound (loc : GoLocation) (hU : List String) (recs : List CostRecord) :
    ∀ g ∈ recordsByDate loc hU recs, g.2 ≠ [] ∧
      ∀ r ∈ g.2, keepRecord hU r = true ∧ r ∈ recs ∧
        dateKey loc r.fullTimestamp = g.1 := by
  unfold recordsByDate
  refine foldl_invariant
    (fun groups r =>
      if r.uuid ≠ "" ∧ r.uuid ∈ hU then groups
      else if r.rawLine = [] then groups
      else appendGroup groups (dateKey loc r.fullTimestamp) r)
    (fun groups => ∀ g ∈ groups, g.2 ≠ [] ∧ ∀ r ∈ g.2, keepRecord hU r = true ∧
      r ∈ recs ∧ dateKey loc r.fullTimestamp = g.1)
    recs [] ?_ ?_
  · intro g hg
    simp at hg
  · intro groups a ha hs g hg
    dsimp only at hg
    by_cases hc1 : a.uuid ≠ "" ∧ a.uuid ∈ hU
    · rw [if_pos hc1] at hg
      exact hs g hg
    · rw [if_neg hc1] at hg
      by_cases hc2 : a.rawLine = []
      · rw [if_pos hc2] at hg
        exact hs g hg
      · rw [if_neg hc2] at hg
        have hka : keepRecord hU a = true := by
          simp only [keepRecord, decide_eq_true_eq]
          exact ⟨hc1, hc2⟩
        rcases mem_appendGroup _ _ _ g hg with hh | hh | ⟨rs, hmem, heq⟩
        · exact hs g hh
        · subst hh
          refine ⟨by simp, ?_⟩
          intro r hr
          rw [List.mem_singleton] at hr
          subst hr
          exact ⟨hka, ha, rfl⟩
        · subst heq
          obtain ⟨-, hall⟩ := hs _ hmem
          refine ⟨by simp, ?_⟩
          intro r hr
          rcases List.mem_append.mp hr with hr | hr
          · exact hall r hr
          · rw [List.mem_singleton] at hr
            subst hr
            exact ⟨hka, ha, rfl⟩

theorem appendGroup_keys (k : List Char) (r : CostRecord) :
    ∀ groups : List (List Char × List CostRecord),
      (appendGroup groups k r).map Prod.fst =
        if k ∈ groups.map Prod.fst then groups.map Prod.fst
        else groups.map Prod.fst ++ [k] := by
  intro groups
  induction groups with
  | nil => simp [appendGroup]
  | cons g0 rest ih =>
    obtain ⟨k2, rs⟩ := g0
    by_cases hk : k2 = k
    · subst hk
      simp [appendGroup]
    · have hne : ¬ k = k2 := fun hh => hk hh.symm
      by_cases hmem : k ∈ rest.map Prod.fst
      · simp [appendGroup, hk, ih, hmem, List.mem_cons, hne]
      · simp [appendGroup, hk, ih, hmem, List.mem_cons, hne]

theorem recordsByDate_keys_nodup (loc : GoLocation) (hU : List String)
    (recs : List CostRecord) :
    ((recordsByDate loc hU recs).map Prod.fst).Nodup := by
  unfold recordsByDate
  refine foldl_invariant
    (fun groups r =>
      if r.uuid ≠ "" ∧ r.uuid ∈ hU then groups
      else if r.rawLine = [] then groups
      else appendGroup groups (dateKey loc r.fullTimestamp) r)
    (fun groups => (groups.map Prod.fst).Nodup) recs [] ?_ ?_
  · simp
  · intro groups a _ hs
    dsimp only
    by_cases hc1 : a.uuid ≠ "" ∧ a.uuid ∈ hU
    · rw [if_pos hc1]
      exact hs
    · rw [if_neg hc1]
      by_cases hc2 : a.rawLine = []
      · rw [if_pos hc2]
        exact hs
      · rw [if_neg hc2]
        rw [appendGroup_keys]
        by_cases hmem : dateKey loc a.fullTimestamp ∈ groups.map Prod.fst
        · rw [if_pos hmem]
          exact hs
        · rw [if_neg hmem]
          rw [List.nodup_append]
          refine ⟨hs, List.nodup_singleton _, ?_⟩
          intro x hx hx2
          rw [List.mem_singleton] at hx2
          subst hx2
          exact hmem hx

theorem flatMap_congr_mem {α β : Type} (l : List α) (f g : α → List β)
    (h : ∀ a ∈ l, f a = g a) : l.flatMap f = l.flatMap g := by
  induction l with
  | nil => rfl
  | cons a rest ih =>
    rw [List.flatMap_cons, List.flatMap_cons, h a (List.mem_cons_self _ _),
      ih (fun x hx => h x (List.mem_cons_of_mem _ hx))]

theorem flatMap_filter_nonempty {α β : Type} (l : List α) (P : α → Bool) (f : α → List β)
    (h : ∀ a ∈ l, P a = false → f a = []) :
    (l.filter P).flatMap f = l.flatMap f := by
  induction l with
  | nil => rfl
  | cons a rest ih =>
    rw [List.filter_cons]
    by_cases hp : P a = true
    · rw [if_pos hp, List.flatMap_cons, List.flatMap_cons,
        ih (fun x hx => h x (List.mem_cons_of_mem _ hx))]
    · rw [if_neg hp, List.flatMap_cons, h a (List.mem_cons_self _ _)
        (Bool.not_eq_true _ ▸ hp : P a = false), List.nil_append,
        ih (fun x hx => h x (List.mem_cons_of_mem _ hx))]

theorem savePlan_lines_perm (loc : GoLocation) (dec : List Char → Option String)
    (fs : HistFS) (claudeRecords : List CostRecord) (historyUUIDs : List String)
    (loaded : List (List Char)) (minT maxT : Int) (hne : claudeRecords ≠ []) :
    ((savePlan loc dec fs claudeRecords historyUUIDs loaded minT maxT).flatMap
        (fun pr => pr.2)).Perm
      ((claudeRecords.filter (keepRecord
        (saveDedupSet dec fs historyUUIDs loaded minT maxT))).map (fun r => r.rawLine)) := by
  rw [savePlan, if_neg hne]
  show ((((recordsByDate loc (saveDedupSet dec fs historyUUIDs loaded minT maxT)
      claudeRecords).filter (fun g => ¬ g.2 = [])).map
      (fun g => match g.2 with
        | [] => (([] : List Char), ([] : List (List Char)))
        | r0 :: _ => (HistoryFilename loc r0.fullTimestamp,
            g.2.map (fun r : CostRecord => r.rawLine)))).flatMap (fun pr => pr.2)).Perm _
  rw [List.flatMap_map]
  have hcongr : ∀ g ∈ (recordsByDate loc (saveDedupSet dec fs historyUUIDs loaded minT maxT)
      claudeRecords).filter (fun g => ¬ g.2 = []),
      ((fun g : List Char × List CostRecord => match g.2 with
        | [] => (([] : List Char), ([] : List (List Char)))
        | r0 :: _ => (HistoryFilename loc r0.fullTimestamp,
            g.2.map (fun r : CostRecord => r.rawLine))) g).2 = g.2.map (fun r : CostRecord => r.rawLine) := by
    intro g hg
    have hge : ¬ g.2 = [] := by
      have := (List.mem_filter.mp hg).2
      simpa using this
    cases hgl : g.2 with
    | nil => exact absurd hgl hge
    | cons r0 tl =>
      simp only [hgl]
  rw [flatMap_congr_mem _ _ _ hcongr,
    flatMap_filter_nonempty _ _ _ (by
      intro g hg hfalse
      have : g.2 = [] := by simpa using hfalse
      rw [this, List.map_nil]),
    ← List.map_flatMap]
  exact (recordsByDate_flat loc _ claudeRecords).map _

/-- Claim C2: after a run with at least one primary record, `saveToHistory`
builds its dedup set by loading, on demand, the uuid set of every listed
history file overlapping `[claudeMinTime, claudeMaxTime + 24h)` that the
discovery phase had not already loaded (in particular every not-yet-loaded
file whose range meets the observed span `[minT, maxT]`), merges them with
the uuids seen during the run; it skips every record whose non-empty uuid is
in that set, appends each remaining record exactly once (the appended lines
are, as a multiset, exactly the raw lines of the kept records), groups the
appends by local calendar day — one batch per day — and directs each batch to
the history file named after that day. -/
theorem claim_C2 (loc : GoLocation) (dec : List Char → Option String) (fs : HistFS)
    (claudeRecords : List CostRecord) (historyUUIDs : List String)
    (loaded : List (List Char)) (minT maxT : Int)
    (hne : claudeRecords ≠ []) :
    (∀ z, z ∈ saveDedupSet dec fs historyUUIDs loaded minT maxT ↔
      z ∈ historyUUIDs ∨ ∃ f, f ∈ ListHistoryFiles fs ∧
        FileOverlapsRange f minT (maxT + 86400) = true ∧ f ∉ loaded ∧
        z ∈ LoadUUIDs dec (fsLookup fs f)) ∧
    (∀ f, f ∈ ListHistoryFiles fs → f ∉ loaded →
      ∀ s e, ParseHistoryFilename f = some (s, e) → s ≤ maxT → minT < e →
      ∀ z ∈ LoadUUIDs dec (fsLookup fs f),
        z ∈ saveDedupSet dec fs historyUUIDs loaded minT maxT) ∧
    (∀ r ∈ claudeRecords, r.uuid ≠ "" →
      r.uuid ∈ saveDedupSet dec fs historyUUIDs loaded minT maxT →
      ∀ g ∈ recordsByDate loc (saveDedupSet dec fs historyUUIDs loaded minT maxT)
        claudeRecords, r ∉ g.2) ∧
    ((savePlan loc dec fs claudeRecords historyUUIDs loaded minT maxT).flatMap
        (fun pr => pr.2)).Perm
      ((claudeRecords.filter (keepRecord
        (saveDedupSet dec fs historyUUIDs loaded minT maxT))).map (fun r => r.rawLine)) ∧
    (∀ pr ∈ savePlan loc dec fs claudeRecords historyUUIDs loaded minT maxT,
      pr.2 ≠ [] ∧ ∃ r0, r0 ∈ claudeRecords ∧
        keepRecord (saveDedupSet dec fs historyUUIDs loaded minT maxT) r0 = true ∧
        pr.1 = HistoryFilename loc r0.fullTimestamp ∧
        ∀ line ∈ pr.2, ∃ r, r ∈ claudeRecords ∧
          keepRecord (saveDedupSet dec fs historyUUIDs loaded minT maxT) r = true ∧
          r.rawLine = line ∧
          dateKey loc r.fullTimestamp = dateKey loc r0.fullTimestamp) ∧
    ((recordsByDate loc (saveDedupSet dec fs historyUUIDs loaded minT maxT)
      claudeRecords).map Prod.fst).Nodup := by
  have hmem : ∀ z, z ∈ saveDedupSet dec fs historyUUIDs loaded minT maxT ↔
      z ∈ historyUUIDs ∨ ∃ f, f ∈ ListHistoryFiles fs ∧
        FileOverlapsRange f minT (maxT + 86400) = true ∧ f ∉ loaded ∧
        z ∈ LoadUUIDs dec (fsLookup fs f) := by
    intro z
    rw [saveDedupSet, mem_effectiveUUIDs]
    constructor
    · rintro (hz | ⟨f, hf, hnl, hz⟩)
      · exact Or.inl hz
      · rw [FilterFilesForRange, List.mem_filter] at hf
        exact Or.inr ⟨f, hf.1, hf.2, hnl, hz⟩
    · rintro (hz | ⟨f, hf, hov, hnl, hz⟩)
      · exact Or.inl hz
      · exact Or.inr ⟨f, by rw [FilterFilesForRange, List.mem_filter]; exact ⟨hf, hov⟩,
          hnl, hz⟩
  refine ⟨hmem, ?_, ?_, savePlan_lines_perm loc dec fs claudeRecords historyUUIDs loaded
    minT maxT hne, ?_, recordsByDate_keys_nodup loc _ claudeRecords⟩
  · intro f hf hnl s e hparse hs he z hz
    have hov : FileOverlapsRange f minT (maxT + 86400) = true := by
      rw [FileOverlapsRange, hparse]
      simp only [Bool.and_eq_true, decide_eq_true_eq]
      omega
    exact (hmem z).mpr (Or.inr ⟨f, hf, hov, hnl, hz⟩)
  · intro r _ hu hin g hg hrg
    obtain ⟨-, hall⟩ := recordsByDate_sound loc _ claudeRecords g hg
    obtain ⟨hkeep, -, -⟩ := hall r hrg
    rw [keepRecord, decide_eq_true_eq] at hkeep
    exact hkeep.1 ⟨hu, hin⟩
  · intro pr hpr
    rw [savePlan, if_neg hne] at hpr
    set hU := saveDedupSet dec fs historyUUIDs loaded minT maxT with hUdef
    obtain ⟨g, hgf, hpreq⟩ := List.mem_map.mp hpr
    have hgmem : g ∈ recordsByDate loc hU claudeRecords := (List.mem_filter.mp hgf).1
    have hgne : ¬ g.2 = [] := by
      have := (List.mem_filter.mp hgf).2
      simpa using this
    obtain ⟨-, hall⟩ := recordsByDate_sound loc hU claudeRecords g hgmem
    cases hgl : g.2 with
    | nil => exact absurd hgl hgne
    | cons r0 tl =>
      have hr0 : r0 ∈ g.2 := by
        rw [hgl]
        exact List.mem_cons_self _ _
      obtain ⟨hk0, hm0, hd0⟩ := hall r0 hr0
      have hpreq2 : pr = (HistoryFilename loc r0.fullTimestamp,
          g.2.map (fun r : CostRecord => r.rawLine)) := by
        rw [← hpreq]
        simp only [hgl]
      subst hpreq2
      refine ⟨by simp [hgl], r0, hm0, hk0, rfl, ?_⟩
      intro line hline
      obtain ⟨r, hr, hrl⟩ := List.mem_map.mp hline
      obtain ⟨hkr, hmr, hdr⟩ := hall r hr
      exact ⟨r, hmr, hkr, hrl, by rw [hdr, hd0]⟩

/-- Claim C10: records with no requestID and an empty uuid are never
deduplicated: the accumulator folds every such occurrence (primary- or
history-sourced alike) into the metrics, and `saveToHistory` appends every
primary-sourced one with a raw line again on every run — the uuid-based skip
only applies to non-empty uuids — so such an event can accumulate duplicate
copies in history and contribute repeatedly. -/
theorem claim_C10 (gk : CostRecord → String) (recs : List CostRecord)
    (loc : GoLocation) (dec : List Char → Option String) (fs : HistFS)
    (claudeRecords : List CostRecord) (historyUUIDs : List String)
    (loaded : List (List Char)) (minT maxT : Int) :
    ((runAccumulator gk recs).allRecords.filter
        (fun r => r.requestID = none ∧ r.uuid = "") =
      recs.filter (fun r => r.requestID = none ∧ r.uuid = "")) ∧
    (∀ r ∈ claudeRecords, r.uuid = "" → r.rawLine ≠ [] → claudeRecords ≠ [] →
      r.rawLine ∈ (savePlan loc dec fs claudeRecords historyUUIDs loaded
        minT maxT).flatMap (fun pr => pr.2)) := by
  constructor
  · have hrun : runAccumulator gk recs =
        { recs.foldl (accStep gk) accInit with
          metricsByGroup :=
            (((recs.foldl (accStep gk) accInit).maxCostByRequestID).map Prod.snd).foldl
              (foldIntoGroup gk) (recs.foldl (accStep gk) accInit).metricsByGroup
          allRecords := (recs.foldl (accStep gk) accInit).allRecords ++
            ((recs.foldl (accStep gk) accInit).maxCostByRequestID).map Prod.snd } := by
      rw [runAccumulator, accFinish, finishFold_spec]
    rw [hrun]
    show ((recs.foldl (accStep gk) accInit).allRecords ++
        ((recs.foldl (accStep gk) accInit).maxCostByRequestID).map Prod.snd).filter
        (fun r => r.requestID = none ∧ r.uuid = "") = _
    rw [List.filter_append]
    have h2 : (((recs.foldl (accStep gk) accInit).maxCostByRequestID).map Prod.snd).filter
        (fun r => r.requestID = none ∧ r.uuid = "") = [] := by
      rw [List.filter_eq_nil_iff]
      intro a ha
      obtain ⟨p, hp, hpa⟩ := List.mem_map.mp ha
      have := pass1_max_values gk recs p hp
      simp only [decide_eq_true_eq, not_and]
      intro hcon
      rw [← hpa, this] at hcon
      exact absurd hcon (by simp)
    rw [h2, List.append_nil]
    exact pass1_empty_uuid gk recs
  · intro r hr hu hraw hne
    have hkeep : keepRecord (saveDedupSet dec fs historyUUIDs loaded minT maxT) r = true := by
      rw [keepRecord, decide_eq_true_eq]
      exact ⟨fun hcon => hcon.1 hu, hraw⟩
    have hperm := savePlan_lines_perm loc dec fs claudeRecords historyUUIDs loaded
      minT maxT hne
    rw [hperm.mem_iff]
    exact List.mem_map_of_mem _ (List.mem_filter.mpr ⟨hr, hkeep⟩)

/-- Claim C2, witness: one kept record against an empty history directory —
the planned appends are exactly its raw line, and day keys are distinct. -/
theorem claim_C2_witness :
    ((savePlan (fixedGoLocation 0) wDec [] [wRecC] [] [] 1704412800 1704412800).flatMap
      (fun pr => pr.2)).Perm [['z']] ∧
    ((recordsByDate (fixedGoLocation 0)
      (saveDedupSet wDec [] [] [] 1704412800 1704412800) [wRecC]).map Prod.fst).Nodup := by
  have h := claim_C2 (fixedGoLocation 0) wDec [] [wRecC] [] [] 1704412800 1704412800
    (by decide)
  have he : (([wRecC] : List CostRecord).filter (keepRecord
      (saveDedupSet wDec [] [] [] 1704412800 1704412800))).map
      (fun r : CostRecord => r.rawLine) = [['z']] := by decide
  exact ⟨he ▸ h.2.2.2.1, h.2.2.2.2.2⟩

/-- Claim C10, witness: an empty-uuid record submitted twice is folded twice
into allRecords, and its raw line is still planned for appending to history. -/
theorem claim_C10_witness :
    ((runAccumulator (fun r => r.timestamp) [wRecE, wRecE]).allRecords.filter
      (fun r => r.requestID = none ∧ r.uuid = "") = [wRecE, wRecE]) ∧
    (['w'] ∈ (savePlan (fixedGoLocation 0) wDec [] [wRecE] [] [] 1704412800
      1704412800).flatMap (fun pr => pr.2)) := by
  have h := claim_C10 (fun r => r.timestamp) [wRecE, wRecE] (fixedGoLocation 0) wDec []
    [wRecE] [] [] 1704412800 1704412800
  refine ⟨h.1.trans (by decide), ?_⟩
  exact h.2 wRecE (by decide) rfl (by decide) (by decide)

theorem bind_coe_fileRecs (parse : List Char → Option CostRecord)
    (input : List (List (List Char))) :
    (↑input : Multiset (List (List Char))).bind
        (fun f => (fileRecs parse f : Multiset CostRecord)) =
      ↑(input.flatMap (fileRecs parse)) := by
  induction input with
  | nil => rfl
  | cons f rest ih =>
    show ((f ::ₘ ↑rest).bind _) = _
    rw [Multiset.cons_bind, ih, List.flatMap_cons, ← Multiset.coe_add]

theorem pipeInv_init (parse : List Char → Option CostRecord)
    (input : List (List (List Char))) : PipeInv parse input (initState input) := by
  refine ⟨?_, ?_, ?_, ?_⟩
  · simp only [pendingRecs, initState, Multiset.zero_bind, Multiset.coe_nil, add_zero]
    exact bind_coe_fileRecs parse input
  · intro h
    simp [initState] at h
  · intro h
    simp [initState] at h
  · intro h
    simp [initState] at h

theorem fileRecs_cons_ne (parse : List Char → Option CostRecord) (l : List Char)
    (rest : List (List Char)) (hl : ¬ l = []) :
    fileRecs parse (l :: rest) = (parse l).toList ++ fileRecs parse rest := by
  cases l with
  | nil => exact absurd rfl hl
  | cons c cs =>
    simp only [fileRecs, List.filter_cons, List.isEmpty_cons, Bool.not_false, if_true,
      List.filterMap_cons]
    cases hp : parse (c :: cs) with
    | none => simp
    | some r => simp

theorem fileRecs_cons_nil (parse : List Char → Option CostRecord)
    (rest : List (List Char)) :
    fileRecs parse (([] : List Char) :: rest) = fileRecs parse rest := rfl

theorem pipeStep_inv (parse : List Char → Option CostRecord)
    (input : List (List (List Char))) (s t : PipeState) (hst : Step parse s t)
    (hinv : PipeInv parse input s) : PipeInv parse input t := by
  obtain ⟨hp, hl, hr, hf⟩ := hinv
  cases hst with
  | takeFile f fq rd lq pq rq acc lc rc fd =>
    refine ⟨?_, fun h => absurd (hl h).1 (by simp), hr, hf⟩
    rw [← hp]
    simp only [pendingRecs, Multiset.cons_bind]
    abel
  | emitLine l rest fq rd lq pq rq acc lc rc fd =>
    refine ⟨?_, fun h => absurd (hl h).2 (by simp),
      fun h => absurd (hl (hr h).1).2 (by simp), hf⟩
    rw [← hp]
    by_cases hle : l = []
    · subst hle
      simp only [pendingRecs, Multiset.cons_bind, fileRecs_cons_nil]
      simp
    · have hsplit : (↑((parse l).toList ++ fileRecs parse rest) : Multiset CostRecord) =
          (↑(parse l).toList : Multiset CostRecord) + ↑(fileRecs parse rest) :=
        Multiset.coe_add _ _
      simp only [pendingRecs, Multiset.cons_bind, if_neg hle,
        fileRecs_cons_ne parse l rest hle, hsplit]
      abel
  | fileDone fq rd lq pq rq acc lc rc fd =>
    refine ⟨?_, fun h => absurd (hl h).2 (by simp), hr, hf⟩
    rw [← hp]
    simp only [pendingRecs, Multiset.cons_bind]
    have h0 : (fileRecs parse ([] : List (List Char)) : Multiset CostRecord) = 0 := rfl
    rw [h0]
    abel
  | closeLine lq pq rq acc rc fd =>
    exact ⟨hp, fun _ => ⟨rfl, rfl⟩, fun h => ⟨rfl, (hr h).2⟩, hf⟩
  | takeLine l fq rd lq pq rq acc lc rc fd =>
    refine ⟨?_, hl, fun h => absurd (hr h).2.1 (by simp), hf⟩
    rw [← hp]
    simp only [pendingRecs, Multiset.cons_bind]
    abel
  | parseDone l fq rd lq pq rq acc lc rc fd =>
    refine ⟨?_, hl, fun h => absurd (hr h).2.2 (by simp),
      fun h => absurd (hr (hf h).1).2.2 (by simp)⟩
    rw [← hp]
    simp only [pendingRecs, Multiset.cons_bind]
    abel
  | closeRec fq rd rq acc fd =>
    exact ⟨hp, hl, fun _ => ⟨rfl, rfl, rfl⟩, fun h => absurd (hf h).1 (by simp)⟩
  | consume r fq rd lq pq rq acc lc rc fd =>
    refine ⟨?_, hl, hr, fun h => absurd (hf h).2 (by simp)⟩
    have hsplit : (↑(acc ++ [r]) : Multiset CostRecord) = ↑acc + ↑[r] :=
      Multiset.coe_add _ _
    rw [← hp]
    simp only [pendingRecs]
    rw [hsplit, Multiset.coe_singleton, ← Multiset.singleton_add]
    abel
  | fold fq rd lq pq acc lc =>
    exact ⟨hp, hl, hr, fun _ => ⟨rfl, rfl⟩⟩

theorem pipeInv_reachable (parse : List Char → Option CostRecord)
    (input : List (List (List Char))) (s : PipeState)
    (h : Relation.ReflTransGen (Step parse) (initState input) s) :
    PipeInv parse input s := by
  induction h with
  | refl => exact pipeInv_init parse input
  | tail hab hbc ih => exact pipeStep_inv parse input _ _ hbc ih

/-- Claim C9: along any interleaving of the pipeline, by the time the
accumulator folds (records-channel closed and drained), the line channel was
already closed and drained with no parser in flight, and before that the
file channel was drained with no reader in flight — so the accumulator's
arrival list is a permutation of every record parsed from any non-empty line
of any input file; in particular, for every requestID, the accumulator
observed every record carrying it before folding that ID's metrics. -/
theorem claim_C9 (parse : List Char → Option CostRecord)
    (input : List (List (List Char))) (s : PipeState)
    (h : Relation.ReflTransGen (Step parse) (initState input) s)
    (hfold : s.folded = true) :
    s.recClosed = true ∧ s.recQ = 0 ∧ s.lineClosed = true ∧ s.lineQ = 0 ∧
    s.parsing = 0 ∧ s.fileQ = 0 ∧ s.reading = 0 ∧
    s.acc.Perm (input.flatMap (fileRecs parse)) ∧
    ∀ k : String, (s.acc.filter (fun r => r.requestID = some k)).length =
      ((input.flatMap (fileRecs parse)).filter
        (fun r => r.requestID = some k)).length := by
  obtain ⟨hp, hl, hr, hf⟩ := pipeInv_reachable parse input s h
  obtain ⟨hrc, hrq⟩ := hf hfold
  obtain ⟨hlc, hlq, hpq⟩ := hr hrc
  obtain ⟨hfq, hrd⟩ := hl hlc
  have hacc : (↑s.acc : Multiset CostRecord) = ↑(input.flatMap (fileRecs parse)) := by
    rw [← hp, pendingRecs, hrq, hlq, hpq, hfq, hrd]
    simp
  have hperm : s.acc.Perm (input.flatMap (fileRecs parse)) :=
    Multiset.coe_eq_coe.mp hacc
  exact ⟨hrc, hrq, hlc, hlq, hpq, hfq, hrd, hperm,
    fun k => (hperm.filter _).length_eq⟩

/-- Claim C9, witness: a complete run on one single-line file, stepping
through read, emit, close-line, parse, close-records, consume and fold. -/
theorem claim_C9_witness :
    wPipeFinal.acc.Perm (([[['p']]] : List (List (List Char))).flatMap (fileRecs wParse)) ∧
    wPipeFinal.recClosed = true ∧ wPipeFinal.lineClosed = true := by
  have h0 : Relation.ReflTransGen (Step wParse) (initState [[['p']]])
      (initState [[['p']]]) := Relation.ReflTransGen.refl
  have h1 := h0.tail (Step.takeFile [['p']] 0 0 0 0 0 [] false false false)
  have h2 := h1.tail (Step.emitLine ['p'] [] 0 0 0 0 0 [] false false false)
  have h3 := h2.tail (Step.fileDone 0 0 (['p'] ::ₘ 0) 0 0 [] false false false)
  have h4 := h3.tail (Step.closeLine (['p'] ::ₘ 0) 0 0 [] false false)
  have h5 := h4.tail (Step.takeLine ['p'] 0 0 0 0 0 [] true false false)
  have h6 := h5.tail (Step.parseDone ['p'] 0 0 0 0 0 [] true false false)
  have h7 := h6.tail (Step.consume wRecA 0 0 0 0 0 [] true false false)
  have h8 := h7.tail (Step.closeRec 0 0 0 ([] ++ [wRecA]) false)
  have h9 := h8.tail (Step.fold 0 0 0 0 ([] ++ [wRecA]) true)
  have hchain : Relation.ReflTransGen (Step wParse) (initState [[['p']]]) wPipeFinal := h9
  have h := claim_C9 wParse [[['p']]] wPipeFinal hchain rfl
  exact ⟨h.2.2.2.2.2.2.2.1, h.1, h.2.2.1⟩
